import Mathlib

/-!
Verification development for the Femto-PH-DMRR CPU-scheduling simulator.

The Python source (`src/workload.py`, `src/algorithms.py`, `src/main.py`) is
shallowly embedded below.  Machine integers are modelled by `Int` (Python
integers are unbounded), and the floating-point values produced by
`statistics.mean`, `statistics.median` and the literals `0.20` / `1.2` are
modelled by exact rationals (`Rat`); every concrete value appearing in the
theorems below is exactly representable, so this modelling does not change
any compared outcome.  Python's stable `list.sort` is modelled by a stable
insertion sort.  Each scheduler's `while` loop is modelled by a fuel-indexed
iteration of a step function; one step is one iteration of the loop body.
-/

/-- A stable insertion step: insert `x` before the first element `y` with
`le x y`.  Elements strictly smaller than `x` are passed over, so elements
comparing equal keep their original relative order, as in Python's sort. -/
def insS {α : Type} (le : α → α → Bool) (x : α) : List α → List α
  | [] => [x]
  | y :: ys => if le x y then x :: y :: ys else y :: insS le x ys

/-- Stable sort (models Python's stable `sorted` / `list.sort`). -/
def stableSort {α : Type} (le : α → α → Bool) (l : List α) : List α :=
  l.foldr (insS le) []

/-- The mutable process record from `workload.py`, `Process.__init__`.
`finish_time` is written nowhere in the source and is omitted. -/
structure Process where
  pid : Nat
  arrival_time : Int
  priority : Int
  bursts : List Int
  current_burst_index : Nat
  remaining_time : Int
  start_time : Int
  completion_time : Int
  burst_history : List Int
  current_burst_accumulated : Int
deriving DecidableEq

/-- The state part of `Process.__init__`: index 0, `remaining_time` is the
first burst (0 on an empty burst list), `start_time` sentinel `-1`,
`completion_time` 0, empty history, accumulated 0. -/
def Process.init (pid : Nat) (arrival : Int) (priority : Int) (bursts : List Int) : Process :=
  { pid := pid
    arrival_time := arrival
    priority := priority
    bursts := bursts
    current_burst_index := 0
    remaining_time := bursts.headD 0
    start_time := -1
    completion_time := 0
    burst_history := []
    current_burst_accumulated := 0 }

/-- `sorted(self.processes, key=lambda x: x.arrival_time)`. -/
def sortByArrival (l : List Process) : List Process :=
  stableSort (fun a b => decide (a.arrival_time ≤ b.arrival_time)) l

/-- `queue.sort(key=lambda x: x.remaining_time)`. -/
def sortByRemaining (l : List Process) : List Process :=
  stableSort (fun a b => decide (a.remaining_time ≤ b.remaining_time)) l

/-- `queue.sort(key=lambda x: x.priority)`. -/
def sortByPriority (l : List Process) : List Process :=
  stableSort (fun a b => decide (a.priority ≤ b.priority)) l

/-- `statistics.mean` on a list of Python ints, as an exact rational. -/
def mean (l : List Int) : Rat := (l.sum : Rat) / (l.length : Rat)

/-- Sort a list of rationals ascending (used by the median). -/
def ratSort (l : List Rat) : List Rat :=
  stableSort (fun a b => decide (a ≤ b)) l

/-- `statistics.median`: sort; middle element for odd length, average of the
two middle elements for even length.  (The source only calls it on non-empty
lists; the `getD` default is irrelevant there.) -/
def median (l : List Rat) : Rat :=
  let d := ratSort l
  let n := d.length
  if n % 2 = 1 then d.getD (n / 2) 0
  else (d.getD (n / 2 - 1) 0 + d.getD (n / 2) 0) / 2

/-- Python `int(...)` on a rational: truncation toward zero. -/
def pyInt (q : Rat) : Int := if 0 ≤ q then ⌊q⌋ else -⌊-q⌋

/-- `FemtoScheduler.WINDOW_SIZE`. -/
def WINDOW_SIZE : Nat := 5

/-- `FemtoScheduler.femto_predict`, transliterated:
history shorter than the window returns `mean(history)` (5 on empty
history); otherwise the last-5 window is classified stable / ramping /
volatile.  `0.20` and `1.2` are modelled by the exact rationals `1/5` and
`6/5`. -/
def femto_predict (p : Process) : Rat :=
  if p.burst_history.length < WINDOW_SIZE then
    if p.burst_history = [] then 5 else mean p.burst_history
  else
    let window := p.burst_history.drop (p.burst_history.length - WINDOW_SIZE)
    let avg := mean window
    let min_v := (window.min?).getD 0
    let max_v := (window.max?).getD 0
    let is_increasing := (window.zip window.tail).all fun xy => decide (xy.1 < xy.2)
    let range_var := max_v - min_v
    if (range_var : Rat) < avg * (1/5) then avg
    else if is_increasing then ((window.getLastD 0 : Int) : Rat) * (6/5)
    else (max_v : Rat)

/-- `FemtoScheduler.calculate_system_quantum`, transliterated:
`max(2, min(int(median), 25))` on the ready queue's predictions. -/
def calculate_system_quantum (ready_queue : List Process) : Int :=
  if ready_queue = [] then 5
  else
    let predictions := ready_queue.map femto_predict
    if predictions = [] then 5
    else max 2 (min (pyInt (median predictions)) 25)

/-- Admission (the inner `while p_idx < len(procs) and arrival <= time` loop):
move the leading already-arrived processes from the sorted pending list to
the back of the ready queue. -/
def admitArrivals (time : Int) : List Process → List Process → List Process × List Process
  | queue, [] => (queue, [])
  | queue, p :: rest =>
    if p.arrival_time ≤ time then admitArrivals time (queue ++ [p]) rest
    else (queue, p :: rest)

/-- Result of the shared burst-transition code (`current_burst_index += 1;
if more bursts: reload and requeue; else: complete`). -/
inductive Settle where
  | next (p : Process) : Settle
  | finished (p : Process) : Settle
deriving DecidableEq

/-- The shared burst-transition block each scheduler runs when
`remaining_time` reaches 0. -/
def settle (time : Int) (p : Process) : Settle :=
  let p := { p with current_burst_index := p.current_burst_index + 1 }
  if p.current_burst_index < p.bursts.length then
    Settle.next { p with remaining_time := p.bursts.getD p.current_burst_index 0 }
  else
    Settle.finished { p with completion_time := time }

/-- `if p.start_time == -1: p.start_time = time`. -/
def setStart (time : Int) (p : Process) : Process :=
  if p.start_time = -1 then { p with start_time := time } else p

/-- Scheduler loop state shared by all six policies.  `procs` is the
not-yet-admitted suffix of the arrival-sorted process list (replacing the
Python `p_idx` cursor), `pending` is SRTF's `current_p` carried between
iterations (always `none` for the other five policies), `total` is
`len(self.processes)`, and `extra` is policy-private state (the Round Robin
quantum, Priority+RR's quantum and global run counter). -/
structure SchedState (ε : Type) where
  time : Int
  queue : List Process
  pending : Option Process
  procs : List Process
  completed : List Process
  total : Nat
  extra : ε
deriving DecidableEq

/-- The policy-specific pieces of one loop iteration. -/
structure Policy (ε : Type) where
  arrange : ε → List Process → List Process
  runLen : ε → List Process → Process → Int
  record : Process → Int → Process
  tick : ε → ε
  onFinish : ε → ε
  requeue : ε → List Process → Process → List Process × Option Process × ε

def pendList : Option Process → List Process
  | none => []
  | some p => [p]

/-- SRTF's `if current_p and current_p.remaining_time > 0: queue.append;
current_p = None` (a no-op when `pending` is `none`, as it always is for
the other policies). -/
def flushPending (queue : List Process) : Option Process → List Process × Option Process
  | none => (queue, none)
  | some c => if c.remaining_time > 0 then (queue ++ [c], none) else (queue, some c)

/-- The dispatch part of one loop iteration, after the ready queue has been
arranged into `p :: rest` and the pending-arrival list has become `procs2`:
pop the head `p`, set its start time, execute the policy's slice, and
either run the shared burst transition (the slice drained the burst) or
requeue per the policy. -/
def dispatch {ε : Type} (P : Policy ε) (s : SchedState ε) (procs2 : List Process)
    (p : Process) (rest : List Process) : SchedState ε :=
  let len := P.runLen s.extra (p :: rest) p
  let p := setStart s.time p
  let time := s.time + len
  let p := { p with remaining_time := p.remaining_time - len }
  let p := P.record p len
  let ex := P.tick s.extra
  if p.remaining_time = 0 then
    match settle time p with
    | Settle.next q =>
      { time := time, queue := rest ++ [q], pending := none, procs := procs2,
        completed := s.completed, total := s.total, extra := P.onFinish ex }
    | Settle.finished q =>
      { time := time, queue := rest, pending := none, procs := procs2,
        completed := s.completed ++ [q], total := s.total, extra := P.onFinish ex }
  else
    let r := P.requeue ex rest p
    { time := time, queue := r.1, pending := r.2.1, procs := procs2,
      completed := s.completed, total := s.total, extra := r.2.2 }

/-- One iteration of a scheduler's `while` loop: admit arrivals, flush the
held process (SRTF), idle one tick if the ready queue is empty, otherwise
arrange the queue and dispatch its head.  The `[]` arm of the `match` is
unreachable: `arrange` permutes, so it cannot empty a non-empty queue. -/
def gstep {ε : Type} (P : Policy ε) (s : SchedState ε) : SchedState ε :=
  let a := admitArrivals s.time s.queue s.procs
  let f := flushPending a.1 s.pending
  if f.1 = [] then
    { s with time := s.time + 1, queue := f.1, pending := f.2, procs := a.2 }
  else
    match P.arrange s.extra f.1 with
    | [] => { s with time := s.time + 1, queue := [], pending := f.2, procs := a.2 }
    | p :: rest => dispatch P s a.2 p rest

/-- The loop guard: `while len(completed_processes) < len(processes)` has
terminated. -/
def allDone {ε : Type} (s : SchedState ε) : Bool := decide (s.total ≤ s.completed.length)

/-- Fuel-indexed run: `some final` when the loop reaches its exit condition
within `fuel` iterations, `none` otherwise. -/
def runSched {ε : Type} (P : Policy ε) : Nat → SchedState ε → Option (SchedState ε)
  | 0, s => if allDone s then some s else none
  | n + 1, s => if allDone s then some s else runSched P n (gstep P s)

/-- Iterate the loop body `n` times (stopping at the exit condition);
`runSched` returns exactly these states. -/
def stepN {ε : Type} (P : Policy ε) : Nat → SchedState ε → SchedState ε
  | 0, s => s
  | n + 1, s => if allDone s then s else stepN P n (gstep P s)

/-- The start-of-run state built by every `run` method: time 0, empty ready
queue, processes sorted by arrival time, nothing completed. -/
def initState {ε : Type} (ex : ε) (processes : List Process) : SchedState ε :=
  { time := 0, queue := [], pending := none,
    procs := sortByArrival processes,
    completed := [], total := processes.length, extra := ex }

/-- First Come First Served (`class FCFS`): FIFO queue, each dispatch runs
the whole remaining burst (`burst = p.remaining_time; time += burst;
p.remaining_time = 0`), so the post-slice remainder is always 0 and the
requeue arm is dead code. -/
def fcfsPolicy : Policy Unit :=
  { arrange := fun _ q => q
    runLen := fun _ _ p => p.remaining_time
    record := fun p _ => p
    tick := id
    onFinish := id
    requeue := fun ex rest p => (rest ++ [p], none, ex) }

/-- Shortest Job First (`class SJF`): as FCFS but the ready queue is sorted
by `remaining_time` before each dispatch. -/
def sjfPolicy : Policy Unit :=
  { fcfsPolicy with arrange := fun _ q => sortByRemaining q }

/-- Shortest Remaining Time First (`class SRTF`): re-sorts by remaining
time every tick, executes exactly one tick, and holds the unfinished
process in `current_p` (our `pending`) until the next iteration. -/
def srtfPolicy : Policy Unit :=
  { arrange := fun _ q => sortByRemaining q
    runLen := fun _ _ _ => 1
    record := fun p _ => p
    tick := id
    onFinish := id
    requeue := fun ex rest p => (rest, some p, ex) }

/-- Priority+RR's policy-private state: the configured quantum and the
single scheduler-global `current_p_runtime` counter. -/
structure PRRExtra where
  quantum : Int
  runtime : Int
deriving DecidableEq

/-- Priority + Round Robin (`class PriorityRR`): stable-sort by priority,
run one tick, increment the global counter; on an unfinished burst, rotate
to the tail and reset the counter when it has reached the quantum,
otherwise reinsert at the head (`queue.insert(0, p)`); the counter also
resets when a burst finishes. -/
def prrPolicy : Policy PRRExtra :=
  { arrange := fun _ q => sortByPriority q
    runLen := fun _ _ _ => 1
    record := fun p _ => p
    tick := fun ex => { ex with runtime := ex.runtime + 1 }
    onFinish := fun ex => { ex with runtime := 0 }
    requeue := fun ex rest p =>
      if ex.runtime ≥ ex.quantum then (rest ++ [p], none, { ex with runtime := 0 })
      else (p :: rest, none, ex) }

/-- Round Robin (`class RoundRobin`): FIFO queue, slice
`min(p.remaining_time, quantum)`, unfinished bursts requeue at the tail. -/
def rrPolicy : Policy Int :=
  { arrange := fun _ q => q
    runLen := fun quantum _ p => min p.remaining_time quantum
    record := fun p _ => p
    tick := id
    onFinish := id
    requeue := fun ex rest p => (rest ++ [p], none, ex) }

/-- Femto-Window (`class FemtoScheduler`): FIFO queue, slice
`min(p.remaining_time, tq)` where `tq` is computed from the whole ready
queue before the pop, and the executed slice length is appended to
`burst_history` on every dispatch.  (`femto_predict` never reads
`start_time`, so computing `tq` on the queue with the head's start time
already set is equivalent to the source's order.) -/
def femtoPolicy : Policy Unit :=
  { arrange := fun _ q => q
    runLen := fun _ q p => min p.remaining_time (calculate_system_quantum q)
    record := fun p len => { p with burst_history := p.burst_history ++ [len] }
    tick := id
    onFinish := id
    requeue := fun ex rest p => (rest ++ [p], none, ex) }

def FCFS.run (processes : List Process) (fuel : Nat) : Option (SchedState Unit) :=
  runSched fcfsPolicy fuel (initState () processes)

def SJF.run (processes : List Process) (fuel : Nat) : Option (SchedState Unit) :=
  runSched sjfPolicy fuel (initState () processes)

def SRTF.run (processes : List Process) (fuel : Nat) : Option (SchedState Unit) :=
  runSched srtfPolicy fuel (initState () processes)

def PriorityRR.run (processes : List Process) (quantum : Int) (fuel : Nat) :
    Option (SchedState PRRExtra) :=
  runSched prrPolicy fuel (initState { quantum := quantum, runtime := 0 } processes)

def RoundRobin.run (processes : List Process) (quantum : Int) (fuel : Nat) :
    Option (SchedState Int) :=
  runSched rrPolicy fuel (initState quantum processes)

def FemtoScheduler.run (processes : List Process) (fuel : Nat) : Option (SchedState Unit) :=
  runSched femtoPolicy fuel (initState () processes)

/-- Result of running a policy constructor.  The source constructors can in
principle refuse a configuration; `configError` models such a refusal. -/
inductive ConfigResult (α : Type) where
  | ok (val : α)
  | configError
deriving DecidableEq

/-- `RoundRobin.__init__(self, processes, quantum)`: stores the quantum and
the processes.  The source body contains no validation and no raise, so the
construction succeeds for every quantum. -/
def RoundRobin.construct (processes : List Process) (quantum : Int) :
    ConfigResult (SchedState Int) :=
  ConfigResult.ok (initState quantum processes)

/-- `PriorityRR.__init__(self, processes, quantum=4)`: stores the quantum
and the processes; no validation, no raise. -/
def PriorityRR.construct (processes : List Process) (quantum : Int) :
    ConfigResult (SchedState PRRExtra) :=
  ConfigResult.ok (initState { quantum := quantum, runtime := 0 } processes)

/-- The metrics dictionary built by `main.calculate_metrics`. -/
structure MetricsDict where
  avg_tat : Rat
  avg_wt : Rat
  avg_rt : Rat
  throughput : Rat
  cpu_util : Rat
  ctx_switch : Int
deriving DecidableEq

/-- Outcome of `main.calculate_metrics`: the empty dict on zero completed
processes, an `AttributeError` if the scheduler object has no
`context_switches` attribute, or the filled dictionary. -/
inductive MetricsResult where
  | attrError
  | emptyDict
  | ok (m : MetricsDict)
deriving DecidableEq

/-- The `context_switches` attribute of a scheduler object after `run`:
`Scheduler.__init__` sets only `name`, `processes` and
`completed_processes`, and no `run` method of any of the six policies
assigns `context_switches`, so the attribute is absent (`none`) on every
scheduler object in `algorithms.py`. -/
def Scheduler.context_switches {ε : Type} (_s : SchedState ε) : Option Int := none

/-- `main.calculate_metrics`, transliterated.  The per-process loop and the
`n == 0` early return run before the result dictionary is built; the
dictionary construction reads `scheduler_obj.context_switches`, which
raises `AttributeError` when the attribute is absent. -/
def calculate_metrics (completed : List Process) (context_switches_attr : Option Int) :
    MetricsResult :=
  let n := completed.length
  let total_tat : Int := (completed.map (fun p => p.completion_time - p.arrival_time)).sum
  let total_wt : Int :=
    (completed.map (fun p => p.completion_time - p.arrival_time - p.bursts.sum)).sum
  let total_rt : Int := (completed.map (fun p => p.start_time - p.arrival_time)).sum
  let total_burst : Int := (completed.map (fun p => p.bursts.sum)).sum
  let max_completion : Int := (completed.map (fun p => p.completion_time)).foldl max 0
  if n = 0 then MetricsResult.emptyDict
  else
    match context_switches_attr with
    | none => MetricsResult.attrError
    | some c =>
      MetricsResult.ok
        { avg_tat := (total_tat : Rat) / (n : Rat)
          avg_wt := (total_wt : Rat) / (n : Rat)
          avg_rt := (total_rt : Rat) / (n : Rat)
          throughput := if 0 < max_completion then (n : Rat) / (max_completion : Rat) else 0
          cpu_util :=
            if 0 < max_completion then (total_burst : Rat) / (max_completion : Rat) * 100 else 0
          ctx_switch := c }

/-! ### Basic lemmas about the shared machinery -/

theorem insS_perm {α : Type} (le : α → α → Bool) (x : α) (l : List α) :
    List.Perm (insS le x l) (x :: l) := by
  induction l with
  | nil => exact List.Perm.refl _
  | cons y ys ih =>
    simp only [insS]
    split
    · exact List.Perm.refl _
    · exact (ih.cons y).trans (List.Perm.swap x y ys)

theorem stableSort_perm {α : Type} (le : α → α → Bool) (l : List α) :
    List.Perm (stableSort le l) l := by
  induction l with
  | nil => exact List.Perm.refl _
  | cons x xs ih => exact (insS_perm le x (stableSort le xs)).trans (ih.cons x)

theorem sortByArrival_perm (l : List Process) : List.Perm (sortByArrival l) l :=
  stableSort_perm _ l

theorem sortByRemaining_perm (l : List Process) : List.Perm (sortByRemaining l) l :=
  stableSort_perm _ l

theorem sortByPriority_perm (l : List Process) : List.Perm (sortByPriority l) l :=
  stableSort_perm _ l

theorem admit_perm (t : Int) (q ps : List Process) :
    List.Perm ((admitArrivals t q ps).1 ++ (admitArrivals t q ps).2) (q ++ ps) := by
  induction ps generalizing q with
  | nil => simp [admitArrivals]
  | cons p rest ih =>
    simp only [admitArrivals]
    split
    · exact (ih (q ++ [p])).trans (by rw [List.append_assoc]; exact List.Perm.refl _)
    · exact List.Perm.refl _

theorem admit_queue_mem (t : Int) (q ps : List Process) :
    ∀ p ∈ (admitArrivals t q ps).1, p ∈ q ∨ (p ∈ ps ∧ p.arrival_time ≤ t) := by
  induction ps generalizing q with
  | nil => intro p hp; simp only [admitArrivals] at hp; exact Or.inl hp
  | cons x rest ih =>
    intro p hp
    simp only [admitArrivals] at hp
    split at hp
    · next hx =>
      rcases ih (q ++ [x]) p hp with h | h
      · rcases List.mem_append.1 h with h' | h'
        · exact Or.inl h'
        · simp only [List.mem_singleton] at h'
          subst h'
          exact Or.inr ⟨List.mem_cons_self p rest, hx⟩
      · exact Or.inr ⟨List.mem_cons_of_mem x h.1, h.2⟩
    · exact Or.inl hp

theorem admit_procs_sublist (t : Int) (q ps : List Process) :
    ((admitArrivals t q ps).2).Sublist ps := by
  induction ps generalizing q with
  | nil => simp [admitArrivals]
  | cons x rest ih =>
    simp only [admitArrivals]
    split
    · exact (ih (q ++ [x])).trans (List.sublist_cons_self x rest)
    · exact List.Sublist.refl _

theorem admit_empty (t : Int) (q ps : List Process) (h : (admitArrivals t q ps).1 = []) :
    q = [] ∧ (admitArrivals t q ps).2 = ps ∧ ∀ x ∈ ps.head?, t < x.arrival_time := by
  induction ps generalizing q with
  | nil =>
    refine ⟨h, rfl, ?_⟩
    intro x hx
    simp [admitArrivals] at hx
  | cons x rest ih =>
    simp only [admitArrivals] at h ⊢
    split at h
    · rcases ih (q ++ [x]) h with ⟨habs, -⟩
      exact absurd habs (by simp)
    · next hx =>
      simp only [if_neg hx]
      refine ⟨h, by trivial, ?_⟩
      intro y hy
      simp only [List.head?_cons, Option.mem_def, Option.some.injEq] at hy
      subst hy
      exact lt_of_not_le hx

theorem flush_inv (q : List Process) (pd : Option Process)
    (hpd : ∀ p ∈ pendList pd, 1 ≤ p.remaining_time) :
    flushPending q pd = (q ++ pendList pd, none) := by
  cases pd with
  | none => simp [flushPending, pendList]
  | some c =>
    have hc : 1 ≤ c.remaining_time := hpd c (by simp [pendList])
    simp [flushPending, pendList, lt_of_lt_of_le Int.zero_lt_one hc]

theorem settle_cases (t : Int) (p : Process) :
    (p.current_burst_index + 1 < p.bursts.length ∧
      settle t p = Settle.next { p with
        current_burst_index := p.current_burst_index + 1
        remaining_time := p.bursts.getD (p.current_burst_index + 1) 0 }) ∨
    (¬ p.current_burst_index + 1 < p.bursts.length ∧
      settle t p = Settle.finished { p with
        current_burst_index := p.current_burst_index + 1
        completion_time := t }) := by
  by_cases h : p.current_burst_index + 1 < p.bursts.length
  · exact Or.inl ⟨h, by simp [settle, h]⟩
  · exact Or.inr ⟨h, by simp [settle, h]⟩

theorem setStart_eq (t : Int) (p : Process) :
    setStart t p = { p with start_time := if p.start_time = -1 then t else p.start_time } := by
  by_cases h : p.start_time = -1 <;> simp [setStart, h]

/-! ### Invariants of reachable scheduler states -/

/-- The immutable identity of a process: pid, arrival time and burst list. -/
def Process.core (p : Process) : Nat × Int × List Int := (p.pid, p.arrival_time, p.bursts)

/-- All burst lengths are positive (the valid-workload condition). -/
def PosBursts (p : Process) : Prop := ∀ b ∈ p.bursts, 1 ≤ b

/-- Invariant of every process that has not yet completed: its remaining
time is positive, its burst index is in range, its bursts are positive and
its start time is the sentinel or at least its arrival time. -/
def ActiveInv (p : Process) : Prop :=
  1 ≤ p.remaining_time ∧ p.current_burst_index < p.bursts.length ∧ PosBursts p ∧
    (p.start_time = -1 ∨ p.arrival_time ≤ p.start_time)

/-- Invariant of every completed process. -/
def CompletedInv (p : Process) : Prop :=
  p.arrival_time < p.completion_time ∧ p.arrival_time ≤ p.start_time ∧
    p.current_burst_index = p.bursts.length ∧ p.remaining_time = 0 ∧ PosBursts p

/-- The processes still owned by the loop (ready queue, held process,
not-yet-arrived list). -/
def activeProcs {ε : Type} (s : SchedState ε) : List Process :=
  s.queue ++ pendList s.pending ++ s.procs

/-- Every process the scheduler owns, completed ones included. -/
def allProcs {ε : Type} (s : SchedState ε) : List Process := activeProcs s ++ s.completed

/-- The loop invariant, relative to the run's input process list. -/
structure LoopInv (inputs : List Process) {ε : Type} (s : SchedState ε) : Prop where
  htotal : s.total = inputs.length
  hperm : List.Perm ((allProcs s).map Process.core) (inputs.map Process.core)
  hactive : ∀ p ∈ activeProcs s, ActiveInv p
  hadm : ∀ p ∈ s.queue ++ pendList s.pending, p.arrival_time ≤ s.time
  hcompl : ∀ p ∈ s.completed, CompletedInv p ∧ p.completion_time ≤ s.time
  hsorted : s.completed.Pairwise (fun a b => a.completion_time ≤ b.completion_time)

/-- The hypotheses on a policy record under which the generic loop step
preserves the invariant.  `ExOK` constrains the policy-private state (for
Round Robin it asserts a positive quantum). -/
structure PolicyOK {ε : Type} (P : Policy ε) (ExOK : ε → Prop) : Prop where
  arrange_perm : ∀ ex q, List.Perm (P.arrange ex q) q
  runLen_ge_one : ∀ ex q p, ExOK ex → (∀ x ∈ q, 1 ≤ x.remaining_time) → p ∈ q →
    1 ≤ P.runLen ex q p
  runLen_le_rem : ∀ ex q p, ExOK ex → (∀ x ∈ q, 1 ≤ x.remaining_time) → p ∈ q →
    P.runLen ex q p ≤ p.remaining_time
  record_eq : ∀ p len, P.record p len = { p with burst_history := (P.record p len).burst_history }
  requeue_perm : ∀ ex rest p,
    List.Perm ((P.requeue ex rest p).1 ++ pendList (P.requeue ex rest p).2.1) (p :: rest)
  tick_ok : ∀ ex, ExOK ex → ExOK (P.tick ex)
  onFinish_ok : ∀ ex, ExOK ex → ExOK (P.onFinish ex)
  requeue_ok : ∀ ex rest p, ExOK ex → ExOK (P.requeue ex rest p).2.2

/-- Remaining work of one process, as a natural number: the rest of the
current burst plus all future bursts. -/
def workNat (p : Process) : Nat :=
  p.remaining_time.toNat + ((p.bursts.drop (p.current_burst_index + 1)).map Int.toNat).sum

/-- Total remaining work owned by the loop (primary termination measure). -/
def W {ε : Type} (s : SchedState ε) : Nat := ((activeProcs s).map workNat).sum

/-- Distance to the next pending arrival (secondary termination measure,
decreasing on idle ticks). -/
def gap {ε : Type} (s : SchedState ε) : Nat :=
  match s.procs with
  | [] => 0
  | p :: _ => (p.arrival_time + 1 - s.time).toNat

theorem getD_pos {p : Process} (hpos : PosBursts p) {i : Nat} (hi : i < p.bursts.length) :
    1 ≤ p.bursts.getD i 0 := by
  rw [List.getD_eq_getElem _ _ hi]
  exact hpos _ (List.getElem_mem hi)

theorem mem_active_of_queue {ε : Type} {s : SchedState ε} {p : Process} (h : p ∈ s.queue) :
    p ∈ activeProcs s := by
  simp only [activeProcs, List.mem_append]
  tauto

theorem mem_active_of_pend {ε : Type} {s : SchedState ε} {p : Process}
    (h : p ∈ pendList s.pending) : p ∈ activeProcs s := by
  simp only [activeProcs, List.mem_append]
  tauto

theorem mem_active_of_procs {ε : Type} {s : SchedState ε} {p : Process} (h : p ∈ s.procs) :
    p ∈ activeProcs s := by
  simp only [activeProcs, List.mem_append]
  tauto

theorem perm_shuffle {α : Type} {a b x y : List α} (h : List.Perm (a ++ b) (x ++ y))
    (c : List α) : List.Perm ((a ++ c) ++ b) ((x ++ c) ++ y) := by
  have h1 : List.Perm ((a ++ c) ++ b) ((a ++ b) ++ c) := by
    rw [List.append_assoc a c b, List.append_assoc a b c]
    exact List.Perm.append_left a List.perm_append_comm
  have h2 : List.Perm ((a ++ b) ++ c) ((x ++ y) ++ c) := List.Perm.append_right c h
  have h3 : List.Perm ((x ++ y) ++ c) ((x ++ c) ++ y) := by
    rw [List.append_assoc x y c, List.append_assoc x c y]
    exact List.Perm.append_left x List.perm_append_comm
  exact (h1.trans h2).trans h3

/-- The dispatched head after a slice that left the burst unfinished. -/
def headCont (p : Process) (len st : Int) (H : List Int) : Process :=
  { p with
    start_time := st
    remaining_time := p.remaining_time - len
    burst_history := H }

/-- The dispatched head after its burst drained with further bursts left. -/
def headNext (p : Process) (st : Int) (H : List Int) : Process :=
  { p with
    start_time := st
    current_burst_index := p.current_burst_index + 1
    remaining_time := p.bursts.getD (p.current_burst_index + 1) 0
    burst_history := H }

/-- The dispatched head after its final burst drained (completed). -/
def headFin (p : Process) (len st tfin : Int) (H : List Int) : Process :=
  { p with
    start_time := st
    current_burst_index := p.current_burst_index + 1
    remaining_time := p.remaining_time - len
    completion_time := tfin
    burst_history := H }

theorem perm_complete {α : Type} (a : α) (R C D : List α) :
    List.Perm ((R ++ C) ++ (D ++ [a])) (((a :: R) ++ C) ++ D) := by
  have h : (R ++ C) ++ (D ++ [a]) = (((R ++ C) ++ D) ++ [a]) := by
    simp [List.append_assoc]
  rw [h]
  exact List.perm_append_singleton a ((R ++ C) ++ D)

set_option maxHeartbeats 1000000 in
theorem dispatch_main {ε : Type} {P : Policy ε} {ExOK : ε → Prop} (hP : PolicyOK P ExOK)
    {inputs : List Process} {s : SchedState ε} {procs2 : List Process}
    {p : Process} {rest : List Process}
    (hex : ExOK s.extra)
    (hAI : ∀ x ∈ p :: rest, ActiveInv x)
    (harrtime : ∀ x ∈ p :: rest, x.arrival_time ≤ s.time)
    (hP2 : ∀ x ∈ procs2, ActiveInv x)
    (htotal : s.total = inputs.length)
    (hpermB : List.Perm ((((p :: rest) ++ procs2) ++ s.completed).map Process.core)
        (inputs.map Process.core))
    (hcompl : ∀ x ∈ s.completed, CompletedInv x ∧ x.completion_time ≤ s.time)
    (hsorted : s.completed.Pairwise (fun a b => a.completion_time ≤ b.completion_time)) :
    LoopInv inputs (dispatch P s procs2 p rest) ∧
      ExOK (dispatch P s procs2 p rest).extra ∧
      s.time + 1 ≤ (dispatch P s procs2 p rest).time ∧
      (∃ tl, (dispatch P s procs2 p rest).completed = s.completed ++ tl ∧ tl.length ≤ 1) ∧
      (∀ x' ∈ allProcs (dispatch P s procs2 p rest),
          ∃ x ∈ ((p :: rest) ++ procs2) ++ s.completed,
            x.pid = x'.pid ∧ x.current_burst_index ≤ x'.current_burst_index) ∧
      (∀ x' ∈ activeProcs (dispatch P s procs2 p rest),
          x' ∈ (p :: rest) ++ procs2 ∨
          ∃ H : List Int,
            H = (P.record { setStart s.time p with
              remaining_time :=
                (setStart s.time p).remaining_time - P.runLen s.extra (p :: rest) p }
              (P.runLen s.extra (p :: rest) p)).burst_history ∧
            ((x' = headCont p (P.runLen s.extra (p :: rest) p)
                (if p.start_time = -1 then s.time else p.start_time) H ∧
                p.remaining_time - P.runLen s.extra (p :: rest) p ≠ 0) ∨
             (x' = headNext p (if p.start_time = -1 then s.time else p.start_time) H ∧
                p.remaining_time = P.runLen s.extra (p :: rest) p ∧
                p.current_burst_index + 1 < p.bursts.length))) ∧
      (∀ x' ∈ (dispatch P s procs2 p rest).completed,
          x' ∈ s.completed ∨
          ∃ H : List Int,
            H = (P.record { setStart s.time p with
              remaining_time :=
                (setStart s.time p).remaining_time - P.runLen s.extra (p :: rest) p }
              (P.runLen s.extra (p :: rest) p)).burst_history ∧
            x' = headFin p (P.runLen s.extra (p :: rest) p)
              (if p.start_time = -1 then s.time else p.start_time)
              (s.time + P.runLen s.extra (p :: rest) p) H ∧
            p.remaining_time = P.runLen s.extra (p :: rest) p ∧
            p.current_burst_index + 1 = p.bursts.length) ∧
      ((activeProcs (dispatch P s procs2 p rest)).map workNat).sum
        < (((p :: rest) ++ procs2).map workNat).sum := by
  obtain ⟨hrem1, hidx, hpos, hstart⟩ := hAI p (List.mem_cons_self p rest)
  have hremq : ∀ x ∈ p :: rest, 1 ≤ x.remaining_time := fun x hx => (hAI x hx).1
  have hptime : p.arrival_time ≤ s.time := harrtime p (List.mem_cons_self p rest)
  have hlen1 : 1 ≤ P.runLen s.extra (p :: rest) p :=
    hP.runLen_ge_one _ _ _ hex hremq (List.mem_cons_self p rest)
  have hlenle : P.runLen s.extra (p :: rest) p ≤ p.remaining_time :=
    hP.runLen_le_rem _ _ _ hex hremq (List.mem_cons_self p rest)
  have hstge : p.arrival_time ≤ (if p.start_time = -1 then s.time else p.start_time) := by
    split
    · exact hptime
    · next hne =>
      rcases hstart with h' | h'
      · exact absurd h' hne
      · exact h'
  have hbody : dispatch P s procs2 p rest =
      (if ({ p with
          start_time := if p.start_time = -1 then s.time else p.start_time
          remaining_time := p.remaining_time - P.runLen s.extra (p :: rest) p
          burst_history := (P.record { setStart s.time p with
            remaining_time :=
              (setStart s.time p).remaining_time - P.runLen s.extra (p :: rest) p }
            (P.runLen s.extra (p :: rest) p)).burst_history } : Process).remaining_time = 0 then
        match settle (s.time + P.runLen s.extra (p :: rest) p) { p with
            start_time := if p.start_time = -1 then s.time else p.start_time
            remaining_time := p.remaining_time - P.runLen s.extra (p :: rest) p
            burst_history := (P.record { setStart s.time p with
              remaining_time :=
                (setStart s.time p).remaining_time - P.runLen s.extra (p :: rest) p }
              (P.runLen s.extra (p :: rest) p)).burst_history } with
        | Settle.next q =>
          { time := s.time + P.runLen s.extra (p :: rest) p, queue := rest ++ [q],
            pending := none, procs := procs2, completed := s.completed, total := s.total,
            extra := P.onFinish (P.tick s.extra) }
        | Settle.finished q =>
          { time := s.time + P.runLen s.extra (p :: rest) p, queue := rest,
            pending := none, procs := procs2, completed := s.completed ++ [q],
            total := s.total, extra := P.onFinish (P.tick s.extra) }
      else
        { time := s.time + P.runLen s.extra (p :: rest) p,
          queue := (P.requeue (P.tick s.extra) rest { p with
            start_time := if p.start_time = -1 then s.time else p.start_time
            remaining_time := p.remaining_time - P.runLen s.extra (p :: rest) p
            burst_history := (P.record { setStart s.time p with
              remaining_time :=
                (setStart s.time p).remaining_time - P.runLen s.extra (p :: rest) p }
              (P.runLen s.extra (p :: rest) p)).burst_history }).1,
          pending := (P.requeue (P.tick s.extra) rest { p with
            start_time := if p.start_time = -1 then s.time else p.start_time
            remaining_time := p.remaining_time - P.runLen s.extra (p :: rest) p
            burst_history := (P.record { setStart s.time p with
              remaining_time :=
                (setStart s.time p).remaining_time - P.runLen s.extra (p :: rest) p }
              (P.runLen s.extra (p :: rest) p)).burst_history }).2.1,
          procs := procs2, completed := s.completed, total := s.total,
          extra := (P.requeue (P.tick s.extra) rest { p with
            start_time := if p.start_time = -1 then s.time else p.start_time
            remaining_time := p.remaining_time - P.runLen s.extra (p :: rest) p
            burst_history := (P.record { setStart s.time p with
              remaining_time :=
                (setStart s.time p).remaining_time - P.runLen s.extra (p :: rest) p }
              (P.runLen s.extra (p :: rest) p)).burst_history }).2.2 }) := by
    simp only [dispatch]
    rw [hP.record_eq, setStart_eq]
  rw [hbody]
  clear hbody
  generalize hlen : P.runLen s.extra (p :: rest) p = len at hlen1 hlenle ⊢
  generalize hH : (P.record { setStart s.time p with
      remaining_time := (setStart s.time p).remaining_time - len } len).burst_history = H
  generalize hst : (if p.start_time = -1 then s.time else p.start_time) = st at hstge ⊢
  set p3 : Process := { p with
    start_time := st
    remaining_time := p.remaining_time - len
    burst_history := H } with hp3
  have hp3rem : p3.remaining_time = p.remaining_time - len := rfl
  have hp3idx : p3.current_burst_index = p.current_burst_index := rfl
  have hp3bursts : p3.bursts = p.bursts := rfl
  have hp3pid : p3.pid = p.pid := rfl
  have hp3arr : p3.arrival_time = p.arrival_time := rfl
  have hp3start : p3.start_time = st := rfl
  have hc3 : Process.core p3 = Process.core p := rfl
  by_cases hz : p3.remaining_time = 0
  · rw [if_pos hz]
    rw [hp3rem] at hz
    rcases settle_cases (s.time + len) p3 with ⟨hlt, hse⟩ | ⟨hge, hse⟩
    · -- the drained burst was not the last one: reload and requeue at the tail
      rw [hse]
      dsimp only []
      rw [hp3idx, hp3bursts] at hlt
      set ql : Process := { p with
        current_burst_index := p.current_burst_index + 1
        remaining_time := p.bursts.getD (p.current_burst_index + 1) 0
        start_time := st
        burst_history := H } with hql
      have hqlcore : Process.core ql = Process.core p := rfl
      have hAIql : ActiveInv ql := ⟨getD_pos hpos hlt, hlt, hpos, Or.inr hstge⟩
      refine ⟨⟨htotal, ?_, ?_, ?_, ?_, ?_⟩, ?_, ?_, ?_, ?_, ?_, ?_, ?_⟩
      · refine List.Perm.trans ?_ hpermB
        simp only [allProcs, activeProcs, pendList, List.append_nil, List.map_append,
          List.map_cons, List.map_nil, hqlcore]
        exact List.Perm.append_right _
          (List.Perm.append_right _ (List.perm_append_singleton _ _))
      · intro x hx
        simp only [activeProcs, pendList, List.append_nil, List.mem_append] at hx
        rcases hx with (hx | hx) | hx
        · exact hAI x (List.mem_cons_of_mem p hx)
        · simp only [List.mem_singleton] at hx
          subst hx
          exact hAIql
        · exact hP2 x hx
      · intro x hx
        simp only [pendList, List.append_nil, List.mem_append] at hx
        rcases hx with hx | hx
        · have h1 := harrtime x (List.mem_cons_of_mem p hx)
          show x.arrival_time ≤ s.time + len
          omega
        · simp only [List.mem_singleton] at hx
          subst hx
          show p.arrival_time ≤ s.time + len
          omega
      · intro x hx
        refine ⟨(hcompl x hx).1, ?_⟩
        have h1 := (hcompl x hx).2
        show x.completion_time ≤ s.time + len
        omega
      · exact hsorted
      · exact hP.onFinish_ok _ (hP.tick_ok _ hex)
      · show s.time + 1 ≤ s.time + len
        omega
      · exact ⟨[], by simp, by simp⟩
      · intro x' hx'
        simp only [allProcs, activeProcs, pendList, List.append_nil, List.mem_append] at hx'
        rcases hx' with ((hx' | hx') | hx') | hx'
        · exact ⟨x', List.mem_append.2 (Or.inl (List.mem_append.2
            (Or.inl (List.mem_cons_of_mem p hx')))), rfl, le_refl _⟩
        · simp only [List.mem_singleton] at hx'
          subst hx'
          refine ⟨p, List.mem_append.2 (Or.inl (List.mem_append.2
            (Or.inl (List.mem_cons_self p rest)))), rfl, ?_⟩
          show p.current_burst_index ≤ p.current_burst_index + 1
          omega
        · exact ⟨x', List.mem_append.2 (Or.inl (List.mem_append.2 (Or.inr hx'))), rfl, le_refl _⟩
        · exact ⟨x', List.mem_append.2 (Or.inr hx'), rfl, le_refl _⟩
      · intro x' hx'
        simp only [activeProcs, pendList, List.append_nil, List.mem_append] at hx'
        rcases hx' with (hx' | hx') | hx'
        · exact Or.inl (List.mem_append.2 (Or.inl (List.mem_cons_of_mem p hx')))
        · simp only [List.mem_singleton] at hx'
          subst hx'
          refine Or.inr ⟨H, rfl, Or.inr ⟨?_, by omega, hlt⟩⟩
          rw [hql]
          rfl
        · exact Or.inl (List.mem_append.2 (Or.inr hx'))
      · intro x' hx'
        exact Or.inl hx'
      · simp only [activeProcs, pendList, List.append_nil, List.map_append, List.map_cons,
          List.map_nil, List.sum_append, List.sum_cons, List.sum_nil]
        have hT : ((p.bursts.drop (p.current_burst_index + 1)).map Int.toNat).sum
            = (p.bursts.getD (p.current_burst_index + 1) 0).toNat
              + ((p.bursts.drop (p.current_burst_index + 1 + 1)).map Int.toNat).sum := by
          rw [List.drop_eq_getElem_cons hlt, List.getD_eq_getElem _ _ hlt]
          simp only [List.map_cons, List.sum_cons]
        have hwp : workNat p = p.remaining_time.toNat
            + ((p.bursts.drop (p.current_burst_index + 1)).map Int.toNat).sum := rfl
        have hwql : workNat ql = (p.bursts.getD (p.current_burst_index + 1) 0).toNat
            + ((p.bursts.drop (p.current_burst_index + 1 + 1)).map Int.toNat).sum := rfl
        omega
    · -- the drained burst was the last one: the process completes
      rw [hse]
      dsimp only []
      rw [hp3idx, hp3bursts] at hge
      set ql : Process := { p with
        current_burst_index := p.current_burst_index + 1
        remaining_time := p.remaining_time - len
        start_time := st
        completion_time := s.time + len
        burst_history := H } with hql
      have hqlcore : Process.core ql = Process.core p := rfl
      have hCql : CompletedInv ql := by
        refine ⟨?_, hstge, ?_, hz, hpos⟩
        · show p.arrival_time < s.time + len
          omega
        · show p.current_burst_index + 1 = p.bursts.length
          omega
      refine ⟨⟨htotal, ?_, ?_, ?_, ?_, ?_⟩, ?_, ?_, ?_, ?_, ?_, ?_, ?_⟩
      · refine List.Perm.trans ?_ hpermB
        simp only [allProcs, activeProcs, pendList, List.append_nil, List.map_append,
          List.map_cons, List.map_nil, hqlcore]
        exact perm_complete _ _ _ _
      · intro x hx
        simp only [activeProcs, pendList, List.append_nil, List.mem_append] at hx
        rcases hx with hx | hx
        · exact hAI x (List.mem_cons_of_mem p hx)
        · exact hP2 x hx
      · intro x hx
        simp only [pendList, List.append_nil, List.mem_append] at hx
        have h1 := harrtime x (List.mem_cons_of_mem p hx)
        show x.arrival_time ≤ s.time + len
        omega
      · intro x hx
        rcases List.mem_append.1 hx with hx | hx
        · refine ⟨(hcompl x hx).1, ?_⟩
          have h1 := (hcompl x hx).2
          show x.completion_time ≤ s.time + len
          omega
        · simp only [List.mem_singleton] at hx
          subst hx
          exact ⟨hCql, le_refl _⟩
      · rw [List.pairwise_append]
        refine ⟨hsorted, List.pairwise_singleton _ _, ?_⟩
        intro a ha b hb
        simp only [List.mem_singleton] at hb
        subst hb
        have h1 := (hcompl a ha).2
        show a.completion_time ≤ s.time + len
        omega
      · exact hP.onFinish_ok _ (hP.tick_ok _ hex)
      · show s.time + 1 ≤ s.time + len
        omega
      · exact ⟨[ql], rfl, by simp⟩
      · intro x' hx'
        simp only [allProcs, activeProcs, pendList, List.append_nil, List.mem_append] at hx'
        rcases hx' with (hx' | hx') | hx' | hx'
        · exact ⟨x', List.mem_append.2 (Or.inl (List.mem_append.2
            (Or.inl (List.mem_cons_of_mem p hx')))), rfl, le_refl _⟩
        · exact ⟨x', List.mem_append.2 (Or.inl (List.mem_append.2 (Or.inr hx'))), rfl, le_refl _⟩
        · exact ⟨x', List.mem_append.2 (Or.inr hx'), rfl, le_refl _⟩
        · simp only [List.mem_singleton] at hx'
          subst hx'
          refine ⟨p, List.mem_append.2 (Or.inl (List.mem_append.2
            (Or.inl (List.mem_cons_self p rest)))), rfl, ?_⟩
          show p.current_burst_index ≤ p.current_burst_index + 1
          omega
      · intro x' hx'
        simp only [activeProcs, pendList, List.append_nil, List.mem_append] at hx'
        rcases hx' with hx' | hx'
        · exact Or.inl (List.mem_append.2 (Or.inl (List.mem_cons_of_mem p hx')))
        · exact Or.inl (List.mem_append.2 (Or.inr hx'))
      · intro x' hx'
        rcases List.mem_append.1 hx' with hx' | hx'
        · exact Or.inl hx'
        · simp only [List.mem_singleton] at hx'
          subst hx'
          refine Or.inr ⟨H, rfl, ?_, by omega, by omega⟩
          rw [hql]
          rfl
      · simp only [activeProcs, pendList, List.append_nil, List.map_append, List.map_cons,
          List.map_nil, List.sum_append, List.sum_cons, List.sum_nil]
        have hwp : workNat p = p.remaining_time.toNat
            + ((p.bursts.drop (p.current_burst_index + 1)).map Int.toNat).sum := rfl
        omega
  · -- the slice did not drain the burst: requeue per the policy
    rw [if_neg hz]
    have hrq := hP.requeue_perm (P.tick s.extra) rest p3
    have hsub : ∀ x, x ∈ (P.requeue (P.tick s.extra) rest p3).1 ∨
        x ∈ pendList (P.requeue (P.tick s.extra) rest p3).2.1 → x ∈ p3 :: rest := by
      intro x hx
      exact hrq.subset (List.mem_append.2 hx)
    rw [hp3rem] at hz
    have hAIp3 : ActiveInv p3 := by
      refine ⟨?_, hidx, hpos, Or.inr hstge⟩
      show 1 ≤ p.remaining_time - len
      omega
    refine ⟨⟨htotal, ?_, ?_, ?_, ?_, ?_⟩, ?_, ?_, ?_, ?_, ?_, ?_, ?_⟩
    · refine List.Perm.trans ?_ hpermB
      simp only [allProcs, activeProcs, List.map_append]
      refine List.Perm.append_right _ (List.Perm.append_right _ ?_)
      have h1 := hrq.map Process.core
      rw [List.map_append] at h1
      simpa [List.map_cons, hc3] using h1
    · intro x hx
      simp only [activeProcs, List.mem_append] at hx
      rcases hx with (hx | hx) | hx
      · rcases List.mem_cons.1 (hsub x (Or.inl hx)) with hx3 | hx3
        · subst hx3
          exact hAIp3
        · exact hAI x (List.mem_cons_of_mem p hx3)
      · rcases List.mem_cons.1 (hsub x (Or.inr hx)) with hx3 | hx3
        · subst hx3
          exact hAIp3
        · exact hAI x (List.mem_cons_of_mem p hx3)
      · exact hP2 x hx
    · intro x hx
      simp only [List.mem_append] at hx
      have hx2 := hsub x hx
      show x.arrival_time ≤ s.time + len
      rcases List.mem_cons.1 hx2 with hx3 | hx3
      · subst hx3
        show p.arrival_time ≤ s.time + len
        omega
      · have h1 := harrtime x (List.mem_cons_of_mem p hx3)
        omega
    · intro x hx
      refine ⟨(hcompl x hx).1, ?_⟩
      have h1 := (hcompl x hx).2
      show x.completion_time ≤ s.time + len
      omega
    · exact hsorted
    · exact hP.requeue_ok _ _ _ (hP.tick_ok _ hex)
    · show s.time + 1 ≤ s.time + len
      omega
    · exact ⟨[], by simp, by simp⟩
    · intro x' hx'
      simp only [allProcs, activeProcs, List.mem_append] at hx'
      rcases hx' with ((hx' | hx') | hx') | hx'
      · rcases List.mem_cons.1 (hsub x' (Or.inl hx')) with hx3 | hx3
        · subst hx3
          exact ⟨p, List.mem_append.2 (Or.inl (List.mem_append.2
            (Or.inl (List.mem_cons_self p rest)))), rfl, le_refl _⟩
        · exact ⟨x', List.mem_append.2 (Or.inl (List.mem_append.2
            (Or.inl (List.mem_cons_of_mem p hx3)))), rfl, le_refl _⟩
      · rcases List.mem_cons.1 (hsub x' (Or.inr hx')) with hx3 | hx3
        · subst hx3
          exact ⟨p, List.mem_append.2 (Or.inl (List.mem_append.2
            (Or.inl (List.mem_cons_self p rest)))), rfl, le_refl _⟩
        · exact ⟨x', List.mem_append.2 (Or.inl (List.mem_append.2
            (Or.inl (List.mem_cons_of_mem p hx3)))), rfl, le_refl _⟩
      · exact ⟨x', List.mem_append.2 (Or.inl (List.mem_append.2 (Or.inr hx'))), rfl, le_refl _⟩
      · exact ⟨x', List.mem_append.2 (Or.inr hx'), rfl, le_refl _⟩
    · intro x' hx'
      simp only [activeProcs, List.mem_append] at hx'
      rcases hx' with (hx' | hx') | hx'
      · rcases List.mem_cons.1 (hsub x' (Or.inl hx')) with hx3 | hx3
        · subst hx3
          exact Or.inr ⟨H, rfl, Or.inl ⟨rfl, hz⟩⟩
        · exact Or.inl (List.mem_append.2 (Or.inl (List.mem_cons_of_mem p hx3)))
      · rcases List.mem_cons.1 (hsub x' (Or.inr hx')) with hx3 | hx3
        · subst hx3
          exact Or.inr ⟨H, rfl, Or.inl ⟨rfl, hz⟩⟩
        · exact Or.inl (List.mem_append.2 (Or.inl (List.mem_cons_of_mem p hx3)))
      · exact Or.inl (List.mem_append.2 (Or.inr hx'))
    · intro x' hx'
      exact Or.inl hx'
    · simp only [activeProcs, List.map_append, List.sum_append, List.map_cons, List.sum_cons]
      have h1 := (hrq.map workNat).sum_eq
      rw [List.map_append, List.sum_append] at h1
      simp only [List.map_cons, List.sum_cons] at h1
      have hw3 : workNat p3 = (p.remaining_time - len).toNat
          + ((p.bursts.drop (p.current_burst_index + 1)).map Int.toNat).sum := rfl
      have hwp : workNat p = p.remaining_time.toNat
          + ((p.bursts.drop (p.current_burst_index + 1)).map Int.toNat).sum := rfl
      omega

set_option maxHeartbeats 1000000 in
theorem gstep_main {ε : Type} {P : Policy ε} {ExOK : ε → Prop} (hP : PolicyOK P ExOK)
    {inputs : List Process} {s : SchedState ε}
    (hs : LoopInv inputs s) (hex : ExOK s.extra) :
    LoopInv inputs (gstep P s) ∧ ExOK (gstep P s).extra ∧
      s.time ≤ (gstep P s).time ∧
      (∃ tl, (gstep P s).completed = s.completed ++ tl ∧ tl.length ≤ 1) ∧
      (∀ x' ∈ allProcs (gstep P s), ∃ x ∈ allProcs s,
          x.pid = x'.pid ∧ x.current_burst_index ≤ x'.current_burst_index) ∧
      (∀ x' ∈ activeProcs (gstep P s),
          x' ∈ activeProcs s ∨
          ∃ x ∈ activeProcs s, ∃ len st : Int, ∃ H : List Int,
            1 ≤ len ∧ len ≤ x.remaining_time ∧
            H = (P.record { setStart s.time x with
              remaining_time := (setStart s.time x).remaining_time - len } len).burst_history ∧
            ((x' = headCont x len st H ∧ x.remaining_time - len ≠ 0) ∨
             (x' = headNext x st H ∧ x.remaining_time = len ∧
                x.current_burst_index + 1 < x.bursts.length))) ∧
      (∀ x' ∈ (gstep P s).completed,
          x' ∈ s.completed ∨
          ∃ x ∈ activeProcs s, ∃ len st : Int, ∃ H : List Int,
            1 ≤ len ∧ len ≤ x.remaining_time ∧
            H = (P.record { setStart s.time x with
              remaining_time := (setStart s.time x).remaining_time - len } len).burst_history ∧
            x' = headFin x len st (s.time + len) H ∧ x.remaining_time = len ∧
            x.current_burst_index + 1 = x.bursts.length) ∧
      (allDone s = false →
        W (gstep P s) < W s ∨ (W (gstep P s) = W s ∧ gap (gstep P s) < gap s)) := by
  obtain ⟨htotal, hperm, hactive, hadm, hcompl, hsorted⟩ := hs
  have hpend_rem : ∀ x ∈ pendList s.pending, 1 ≤ x.remaining_time :=
    fun x hx => (hactive x (mem_active_of_pend hx)).1
  have hflush := flush_inv (admitArrivals s.time s.queue s.procs).1 s.pending hpend_rem
  have hgs0 : gstep P s =
      (if (admitArrivals s.time s.queue s.procs).1 ++ pendList s.pending = [] then
        { s with
          time := s.time + 1
          queue := (admitArrivals s.time s.queue s.procs).1 ++ pendList s.pending
          pending := none
          procs := (admitArrivals s.time s.queue s.procs).2 }
      else
        match P.arrange s.extra ((admitArrivals s.time s.queue s.procs).1 ++ pendList s.pending) with
        | [] => { s with
            time := s.time + 1
            queue := []
            pending := none
            procs := (admitArrivals s.time s.queue s.procs).2 }
        | p :: rest => dispatch P s (admitArrivals s.time s.queue s.procs).2 p rest) := by
    simp only [gstep]
    rw [hflush]
  rw [hgs0]
  clear hgs0
  have hq1m : ∀ x ∈ (admitArrivals s.time s.queue s.procs).1,
      x ∈ activeProcs s ∧ x.arrival_time ≤ s.time := by
    intro x hx
    rcases admit_queue_mem s.time s.queue s.procs x hx with h | h
    · exact ⟨mem_active_of_queue h, hadm x (List.mem_append.2 (Or.inl h))⟩
    · exact ⟨mem_active_of_procs h.1, h.2⟩
  have hps2m : ∀ x ∈ (admitArrivals s.time s.queue s.procs).2, x ∈ s.procs :=
    fun x hx => List.Sublist.mem hx (admit_procs_sublist s.time s.queue s.procs)
  have hactperm : List.Perm (((admitArrivals s.time s.queue s.procs).1 ++ pendList s.pending)
      ++ (admitArrivals s.time s.queue s.procs).2) (activeProcs s) :=
    perm_shuffle (admit_perm s.time s.queue s.procs) (pendList s.pending)
  by_cases hempty : (admitArrivals s.time s.queue s.procs).1 ++ pendList s.pending = []
  · -- idle tick: the ready queue is empty
    rw [if_pos hempty]
    have hq1e : (admitArrivals s.time s.queue s.procs).1 = [] := (List.append_eq_nil.1 hempty).1
    have hpende : pendList s.pending = [] := (List.append_eq_nil.1 hempty).2
    obtain ⟨hqe, hps2e, hhead⟩ := admit_empty s.time s.queue s.procs hq1e
    have hpn : s.pending = none := by
      cases hp : s.pending
      · rfl
      · rw [hp] at hpende
        simp [pendList] at hpende
    rw [hempty, hps2e]
    have hperm2 : List.Perm ((s.procs ++ s.completed).map Process.core)
        (inputs.map Process.core) := by
      refine List.Perm.trans ?_ hperm
      refine (List.Perm.append_right s.completed ?_).map Process.core
      simp [activeProcs, pendList, hqe, hpn]
    refine ⟨⟨htotal, ?_, ?_, ?_, ?_, hsorted⟩, hex, ?_, ?_, ?_, ?_, ?_, ?_⟩
    · refine List.Perm.trans ?_ hperm2
      simp [allProcs, activeProcs, pendList]
    · intro x hx
      simp only [activeProcs, pendList, List.append_nil, List.nil_append] at hx
      exact hactive x (mem_active_of_procs hx)
    · intro x hx
      simp [pendList] at hx
    · intro x hx
      refine ⟨(hcompl x hx).1, ?_⟩
      have h1 := (hcompl x hx).2
      show x.completion_time ≤ s.time + 1
      omega
    · show s.time ≤ s.time + 1
      omega
    · exact ⟨[], by simp, by simp⟩
    · intro x' hx'
      simp only [allProcs, activeProcs, pendList, List.append_nil, List.nil_append,
        List.mem_append] at hx'
      rcases hx' with hx' | hx'
      · exact ⟨x', List.mem_append.2 (Or.inl (mem_active_of_procs hx')), rfl, le_refl _⟩
      · exact ⟨x', List.mem_append.2 (Or.inr hx'), rfl, le_refl _⟩
    · intro x' hx'
      refine Or.inl ?_
      simp only [activeProcs, pendList, List.append_nil, List.nil_append] at hx'
      exact mem_active_of_procs hx'
    · intro x' hx'
      exact Or.inl hx'
    · intro hnd
      right
      have hWeq : ((activeProcs { s with
          time := s.time + 1
          queue := ([] : List Process)
          pending := none
          procs := s.procs }).map workNat).sum
          = ((activeProcs s).map workNat).sum := by
        simp [activeProcs, pendList, hqe, hpn]
      refine ⟨hWeq, ?_⟩
      simp only [allDone, decide_eq_false_iff_not, not_le] at hnd
      have hlen := hperm.length_eq
      simp only [List.length_map] at hlen
      have hlen2 : (allProcs s).length = s.procs.length + s.completed.length := by
        simp [allProcs, activeProcs, pendList, hqe, hpn]
      have hne2 : s.procs ≠ [] := by
        intro h0
        rw [h0] at hlen2
        simp at hlen2
        omega
      obtain ⟨h, t, hht⟩ := List.exists_cons_of_ne_nil hne2
      have hha : s.time < h.arrival_time := by
        apply hhead
        rw [hht]
        rfl
      rw [gap, gap]
      simp only [hht]
      omega
  · -- a process is dispatched
    rw [if_neg hempty]
    cases harr : P.arrange s.extra ((admitArrivals s.time s.queue s.procs).1 ++ pendList s.pending) with
    | nil =>
      have h1 := hP.arrange_perm s.extra
        ((admitArrivals s.time s.queue s.procs).1 ++ pendList s.pending)
      rw [harr] at h1
      exact absurd h1.symm.eq_nil hempty
    | cons p rest =>
      dsimp only []
      have hprest : List.Perm (p :: rest)
          ((admitArrivals s.time s.queue s.procs).1 ++ pendList s.pending) := by
        rw [← harr]
        exact hP.arrange_perm _ _
      have hmem_pr : ∀ x ∈ p :: rest, x ∈ activeProcs s ∧ x.arrival_time ≤ s.time := by
        intro x hx
        rcases List.mem_append.1 (hprest.subset hx) with h | h
        · exact hq1m x h
        · exact ⟨mem_active_of_pend h, hadm x (List.mem_append.2 (Or.inr h))⟩
      have hAIr : ∀ x ∈ p :: rest, ActiveInv x := fun x hx => hactive x (hmem_pr x hx).1
      have hart : ∀ x ∈ p :: rest, x.arrival_time ≤ s.time := fun x hx => (hmem_pr x hx).2
      have hP2 : ∀ x ∈ (admitArrivals s.time s.queue s.procs).2, ActiveInv x :=
        fun x hx => hactive x (mem_active_of_procs (hps2m x hx))
      have hbase : List.Perm ((p :: rest) ++ (admitArrivals s.time s.queue s.procs).2)
          (activeProcs s) :=
        (List.Perm.append_right _ hprest).trans hactperm
      have hpermB : List.Perm
          ((((p :: rest) ++ (admitArrivals s.time s.queue s.procs).2) ++ s.completed).map Process.core)
          (inputs.map Process.core) := by
        refine List.Perm.trans ?_ hperm
        exact (List.Perm.append_right s.completed hbase).map Process.core
      obtain ⟨hinv, hexo, htime, htl, hmono, hA, hB, hW⟩ :=
        dispatch_main hP hex hAIr hart hP2 htotal hpermB hcompl hsorted
      have hlen1g : 1 ≤ P.runLen s.extra (p :: rest) p :=
        hP.runLen_ge_one _ _ _ hex (fun x hx => (hAIr x hx).1) (List.mem_cons_self p rest)
      have hlenleg : P.runLen s.extra (p :: rest) p ≤ p.remaining_time :=
        hP.runLen_le_rem _ _ _ hex (fun x hx => (hAIr x hx).1) (List.mem_cons_self p rest)
      refine ⟨hinv, hexo, by omega, htl, ?_, ?_, ?_, ?_⟩
      · intro x' hx'
        obtain ⟨x, hxmem, hpid, hidxle⟩ := hmono x' hx'
        refine ⟨x, ?_, hpid, hidxle⟩
        rcases List.mem_append.1 hxmem with h | h
        · exact List.mem_append.2 (Or.inl (hbase.subset h))
        · exact List.mem_append.2 (Or.inr h)
      · intro x' hx'
        rcases hA x' hx' with h | ⟨H, hHe, hvar⟩
        · exact Or.inl (hbase.subset h)
        · exact Or.inr ⟨p, (hmem_pr p (List.mem_cons_self p rest)).1,
            P.runLen s.extra (p :: rest) p,
            (if p.start_time = -1 then s.time else p.start_time), H,
            hlen1g, hlenleg, hHe, hvar⟩
      · intro x' hx'
        rcases hB x' hx' with h | ⟨H, hHe, hveq, hrem, hidx⟩
        · exact Or.inl h
        · exact Or.inr ⟨p, (hmem_pr p (List.mem_cons_self p rest)).1,
            P.runLen s.extra (p :: rest) p,
            (if p.start_time = -1 then s.time else p.start_time), H,
            hlen1g, hlenleg, hHe, hveq, hrem, hidx⟩
      · intro hnd
        left
        have hsum : (((p :: rest) ++ (admitArrivals s.time s.queue s.procs).2).map workNat).sum
            = W s := (hbase.map workNat).sum_eq
        exact hsum ▸ hW

theorem stepN_done {ε : Type} (P : Policy ε) (n : Nat) (s : SchedState ε)
    (hd : allDone s = true) : stepN P n s = s := by
  cases n with
  | zero => rfl
  | succ n => simp [stepN, hd]

theorem stepN_succ_shift {ε : Type} (P : Policy ε) (n : Nat) (s : SchedState ε)
    (hd : allDone s = false) : stepN P (n + 1) s = stepN P n (gstep P s) := by
  simp [stepN, hd]

theorem stepN_succ_back {ε : Type} (P : Policy ε) (n : Nat) (s : SchedState ε) :
    stepN P (n + 1) s =
      if allDone (stepN P n s) then stepN P n s else gstep P (stepN P n s) := by
  induction n generalizing s with
  | zero => by_cases hd : allDone s <;> simp [stepN, hd]
  | succ n ih =>
    by_cases hd : allDone s = true
    · rw [stepN_done P (n + 1 + 1) s hd, stepN_done P (n + 1) s hd]
      simp [hd]
    · have hd' : allDone s = false := by
        cases hval : allDone s
        · rfl
        · exact absurd hval hd
      rw [stepN_succ_shift P (n + 1) s hd', ih (gstep P s), stepN_succ_shift P n s hd']

theorem runSched_eq_stepN {ε : Type} (P : Policy ε) :
    ∀ (n : Nat) (s f : SchedState ε), runSched P n s = some f →
      f = stepN P n s ∧ allDone f = true := by
  intro n
  induction n with
  | zero =>
    intro s f h
    simp only [runSched] at h
    split at h
    · next hd => cases h; exact ⟨rfl, hd⟩
    · cases h
  | succ n ih =>
    intro s f h
    simp only [runSched] at h
    split at h
    · next hd => cases h; exact ⟨(stepN_done P (n + 1) s hd).symm, hd⟩
    · next hd =>
      have hd' : allDone s = false := by
        cases hval : allDone s
        · rfl
        · exact absurd hval hd
      obtain ⟨hf, hdf⟩ := ih (gstep P s) f h
      refine ⟨?_, hdf⟩
      rw [stepN_succ_shift P n s hd']
      exact hf

theorem stepN_main {ε : Type} {P : Policy ε} {ExOK : ε → Prop} (hP : PolicyOK P ExOK)
    {inputs : List Process} :
    ∀ (n : Nat) (s : SchedState ε), LoopInv inputs s → ExOK s.extra →
      LoopInv inputs (stepN P n s) ∧ ExOK (stepN P n s).extra := by
  intro n
  induction n with
  | zero => intro s h1 h2; exact ⟨h1, h2⟩
  | succ n ih =>
    intro s h1 h2
    by_cases hd : allDone s = true
    · rw [stepN_done P (n + 1) s hd]
      exact ⟨h1, h2⟩
    · have hd' : allDone s = false := by
        cases hval : allDone s
        · rfl
        · exact absurd hval hd
      rw [stepN_succ_shift P n s hd']
      obtain ⟨hi, he, -, -, -, -, -, -⟩ := gstep_main hP h1 h2
      exact ih (gstep P s) hi he

theorem runSched_final {ε : Type} {P : Policy ε} {ExOK : ε → Prop} (hP : PolicyOK P ExOK)
    {inputs : List Process} {n : Nat} {s f : SchedState ε}
    (h1 : LoopInv inputs s) (h2 : ExOK s.extra) (hrun : runSched P n s = some f) :
    LoopInv inputs f ∧ allDone f = true := by
  obtain ⟨hf, hdf⟩ := runSched_eq_stepN P n s f hrun
  rw [hf]
  exact ⟨(stepN_main hP n s h1 h2).1, by rw [← hf]; exact hdf⟩

theorem terminates_aux {ε : Type} {P : Policy ε} {ExOK : ε → Prop} (hP : PolicyOK P ExOK)
    {inputs : List Process} :
    ∀ (a b : Nat) (s : SchedState ε), LoopInv inputs s → ExOK s.extra →
      W s < a → gap s < b → ∃ n f, runSched P n s = some f := by
  intro a
  induction a with
  | zero => intro b s _ _ hW _; omega
  | succ a iha =>
    intro b
    induction b with
    | zero => intro s _ _ _ hg; omega
    | succ b ihb =>
      intro s hinv hex hWa hgb
      by_cases hd : allDone s = true
      · exact ⟨0, s, by simp [runSched, hd]⟩
      · have hd' : allDone s = false := by
          cases hval : allDone s
          · rfl
          · exact absurd hval hd
        obtain ⟨hinv2, hex2, -, -, -, -, -, hmeas⟩ := gstep_main hP hinv hex
        rcases hmeas hd' with hlt | ⟨heq, hglt⟩
        · obtain ⟨n, f, hn⟩ := iha (gap (gstep P s) + 1) (gstep P s) hinv2 hex2
            (by omega) (by omega)
          exact ⟨n + 1, f, by simp only [runSched, hd', Bool.false_eq_true, if_false]; exact hn⟩
        · obtain ⟨n, f, hn⟩ := ihb (gstep P s) hinv2 hex2 (by omega) (by omega)
          exact ⟨n + 1, f, by simp only [runSched, hd', Bool.false_eq_true, if_false]; exact hn⟩

theorem runSched_terminates {ε : Type} {P : Policy ε} {ExOK : ε → Prop} (hP : PolicyOK P ExOK)
    {inputs : List Process} {s : SchedState ε}
    (h1 : LoopInv inputs s) (h2 : ExOK s.extra) : ∃ n f, runSched P n s = some f :=
  terminates_aux hP (W s + 1) (gap s + 1) s h1 h2 (by omega) (by omega)

theorem final_completed {ε : Type} {inputs : List Process} {f : SchedState ε}
    (hinv : LoopInv inputs f) (hdone : allDone f = true) :
    activeProcs f = [] ∧
      List.Perm (f.completed.map Process.core) (inputs.map Process.core) := by
  have hlen := hinv.hperm.length_eq
  simp only [List.length_map] at hlen
  have hlen2 : (allProcs f).length = (activeProcs f).length + f.completed.length := by
    simp [allProcs]
  simp only [allDone, decide_eq_true_eq] at hdone
  have htot := hinv.htotal
  have hact0 : (activeProcs f).length = 0 := by omega
  have hact : activeProcs f = [] := List.length_eq_zero.1 hact0
  refine ⟨hact, ?_⟩
  have hp := hinv.hperm
  rw [allProcs, hact] at hp
  simpa using hp

theorem fcfsOK : PolicyOK fcfsPolicy (fun _ => True) := by
  refine ⟨?_, ?_, ?_, ?_, ?_, ?_, ?_, ?_⟩
  · intro ex q; exact List.Perm.refl q
  · intro ex q p _ hq hp; exact hq p hp
  · intro ex q p _ hq hp; exact le_refl _
  · intro p len; rfl
  · intro ex rest p
    simpa [fcfsPolicy, pendList] using List.perm_append_singleton p rest
  · intro ex _; trivial
  · intro ex _; trivial
  · intro ex rest p _; trivial

theorem sjfOK : PolicyOK sjfPolicy (fun _ => True) := by
  refine ⟨?_, ?_, ?_, ?_, ?_, ?_, ?_, ?_⟩
  · intro ex q; exact sortByRemaining_perm q
  · intro ex q p _ hq hp; exact hq p hp
  · intro ex q p _ hq hp; exact le_refl _
  · intro p len; rfl
  · intro ex rest p
    simpa [sjfPolicy, fcfsPolicy, pendList] using List.perm_append_singleton p rest
  · intro ex _; trivial
  · intro ex _; trivial
  · intro ex rest p _; trivial

theorem srtfOK : PolicyOK srtfPolicy (fun _ => True) := by
  refine ⟨?_, ?_, ?_, ?_, ?_, ?_, ?_, ?_⟩
  · intro ex q; exact sortByRemaining_perm q
  · intro ex q p _ hq hp; exact le_refl 1
  · intro ex q p _ hq hp; exact hq p hp
  · intro p len; rfl
  · intro ex rest p
    simpa [srtfPolicy, pendList] using List.perm_append_singleton p rest
  · intro ex _; trivial
  · intro ex _; trivial
  · intro ex rest p _; trivial

theorem prrOK : PolicyOK prrPolicy (fun _ => True) := by
  refine ⟨?_, ?_, ?_, ?_, ?_, ?_, ?_, ?_⟩
  · intro ex q; exact sortByPriority_perm q
  · intro ex q p _ hq hp; exact le_refl 1
  · intro ex q p _ hq hp; exact hq p hp
  · intro p len; rfl
  · intro ex rest p
    by_cases h : ex.runtime ≥ ex.quantum
    · simpa [prrPolicy, h, pendList] using List.perm_append_singleton p rest
    · simp [prrPolicy, h, pendList]
  · intro ex _; trivial
  · intro ex _; trivial
  · intro ex rest p _; trivial

theorem rrOK : PolicyOK rrPolicy (fun q => 1 ≤ q) := by
  refine ⟨?_, ?_, ?_, ?_, ?_, ?_, ?_, ?_⟩
  · intro ex q; exact List.Perm.refl q
  · intro ex q p hex hq hp; exact le_min (hq p hp) hex
  · intro ex q p _ hq hp; exact min_le_left _ _
  · intro p len; rfl
  · intro ex rest p
    simpa [rrPolicy, pendList] using List.perm_append_singleton p rest
  · intro ex h; exact h
  · intro ex h; exact h
  · intro ex rest p h; exact h

theorem calc_quantum_ge_two (ready : List Process) :
    2 ≤ calculate_system_quantum ready := by
  by_cases h1 : ready = []
  · simp [calculate_system_quantum, h1]
  · by_cases h2 : ready.map femto_predict = []
    · simp [calculate_system_quantum, h1, h2]
    · simp only [calculate_system_quantum, h1, h2, if_false, if_neg]
      exact le_max_left _ _

theorem femtoOK : PolicyOK femtoPolicy (fun _ => True) := by
  refine ⟨?_, ?_, ?_, ?_, ?_, ?_, ?_, ?_⟩
  · intro ex q; exact List.Perm.refl q
  · intro ex q p _ hq hp
    exact le_min (hq p hp) (le_trans (by omega) (calc_quantum_ge_two q))
  · intro ex q p _ hq hp; exact min_le_left _ _
  · intro p len; rfl
  · intro ex rest p
    simpa [femtoPolicy, pendList] using List.perm_append_singleton p rest
  · intro ex _; trivial
  · intro ex _; trivial
  · intro ex rest p _; trivial

/-- A process record as freshly constructed by `Process.__init__` from a
non-empty list of strictly positive bursts: this is the shape every member
of a valid generated workload has when a run begins. -/
def ValidProc (p : Process) : Prop :=
  p.bursts ≠ [] ∧ PosBursts p ∧ p.current_burst_index = 0 ∧
    p.remaining_time = p.bursts.headD 0 ∧ p.start_time = -1 ∧ p.burst_history = []

instance ValidProc.dec (p : Process) : Decidable (ValidProc p) := by
  unfold ValidProc PosBursts
  infer_instance

theorem validProc_init {pid : Nat} {arrival priority : Int} {bursts : List Int}
    (hne : bursts ≠ []) (hpos : ∀ b ∈ bursts, 1 ≤ b) :
    ValidProc (Process.init pid arrival priority bursts) := by
  refine ⟨hne, hpos, rfl, rfl, rfl, rfl⟩

theorem validProc_activeInv {p : Process} (h : ValidProc p) : ActiveInv p := by
  obtain ⟨hne, hpos, hidx, hrem, hstart, -⟩ := h
  refine ⟨?_, ?_, hpos, Or.inl hstart⟩
  · rw [hrem]
    cases hb : p.bursts with
    | nil => exact absurd hb hne
    | cons b t =>
      simp only [List.headD_cons]
      exact hpos b (by rw [hb]; exact List.mem_cons_self b t)
  · rw [hidx]
    cases hb : p.bursts with
    | nil => exact absurd hb hne
    | cons b t => simp

theorem initState_inv {ε : Type} (ex : ε) (inputs : List Process)
    (hv : ∀ p ∈ inputs, ValidProc p) :
    LoopInv inputs (initState ex inputs) := by
  refine ⟨rfl, ?_, ?_, ?_, ?_, ?_⟩
  · show List.Perm ((allProcs (initState ex inputs)).map Process.core) _
    have h1 : allProcs (initState ex inputs) = sortByArrival inputs := by
      simp [allProcs, activeProcs, initState, pendList]
    rw [h1]
    exact (sortByArrival_perm inputs).map Process.core
  · intro p hp
    simp only [activeProcs, initState, pendList, List.append_nil, List.nil_append] at hp
    exact validProc_activeInv (hv p ((sortByArrival_perm inputs).subset hp))
  · intro p hp
    simp [initState, pendList] at hp
  · intro p hp
    simp [initState] at hp
  · simp [initState]

/-- The cumulative CPU time a process has executed so far, reconstructed
from its burst state: all fully executed bursts plus the executed part of
the current one. -/
def executedInt (p : Process) : Int :=
  (p.bursts.take p.current_burst_index).sum
    + (p.bursts.getD p.current_burst_index 0 - p.remaining_time)

theorem setStart_hist (t : Int) (p : Process) :
    (setStart t p).burst_history = p.burst_history := by
  rw [setStart_eq]

theorem gstep_hist_id {ε : Type} {P : Policy ε} {ExOK : ε → Prop} (hP : PolicyOK P ExOK)
    (hrec : ∀ q len, P.record q len = q) {inputs : List Process} {s : SchedState ε}
    (hinv : LoopInv inputs s) (hex : ExOK s.extra)
    (hh : ∀ x ∈ allProcs s, x.burst_history = []) :
    ∀ x' ∈ allProcs (gstep P s), x'.burst_history = [] := by
  obtain ⟨-, -, -, -, -, hA, hB, -⟩ := gstep_main hP hinv hex
  intro x' hx'
  rcases List.mem_append.1 hx' with hx2 | hx2
  · rcases hA x' hx2 with h | ⟨x, hxm, len, st, H, -, -, hHe, hvar⟩
    · exact hh x' (List.mem_append.2 (Or.inl h))
    · rw [hrec] at hHe
      dsimp only [] at hHe
      rw [setStart_hist] at hHe
      have hx0 : x.burst_history = [] := hh x (List.mem_append.2 (Or.inl hxm))
      rcases hvar with ⟨hveq, -⟩ | ⟨hveq, -, -⟩
      · rw [hveq]
        simp only [headCont]
        rw [hHe, hx0]
      · rw [hveq]
        simp only [headNext]
        rw [hHe, hx0]
  · rcases hB x' hx2 with h | ⟨x, hxm, len, st, H, -, -, hHe, hveq, -, -⟩
    · exact hh x' (List.mem_append.2 (Or.inr h))
    · rw [hrec] at hHe
      dsimp only [] at hHe
      rw [setStart_hist] at hHe
      have hx0 : x.burst_history = [] := hh x (List.mem_append.2 (Or.inl hxm))
      rw [hveq]
      simp only [headFin]
      rw [hHe, hx0]

theorem gstep_femto_hist {inputs : List Process} {s : SchedState Unit}
    (hinv : LoopInv inputs s)
    (hh1 : ∀ x ∈ activeProcs s, x.burst_history.sum = executedInt x)
    (hh2 : ∀ x ∈ s.completed, x.burst_history.sum = x.bursts.sum) :
    (∀ x ∈ activeProcs (gstep femtoPolicy s), x.burst_history.sum = executedInt x) ∧
      (∀ x ∈ (gstep femtoPolicy s).completed, x.burst_history.sum = x.bursts.sum) := by
  obtain ⟨-, -, -, -, -, hA, hB, -⟩ := gstep_main femtoOK hinv trivial
  constructor
  · intro x' hx'
    rcases hA x' hx' with h | ⟨x, hxm, len, st, H, -, -, hHe, hvar⟩
    · exact hh1 x' h
    · have hHx : H = x.burst_history ++ [len] := by
        dsimp only [femtoPolicy] at hHe
        rw [setStart_hist] at hHe
        exact hHe
      have hAIx := hinv.hactive x hxm
      have hidx := hAIx.2.1
      have hxsum := hh1 x hxm
      have hex2 : executedInt x = (x.bursts.take x.current_burst_index).sum
          + (x.bursts.getD x.current_burst_index 0 - x.remaining_time) := rfl
      rcases hvar with ⟨hveq, -⟩ | ⟨hveq, hreml, -⟩
      · rw [hveq]
        show (headCont x len st H).burst_history.sum = executedInt (headCont x len st H)
        simp only [headCont, executedInt]
        rw [hHx]
        simp only [List.sum_append, List.sum_cons, List.sum_nil]
        omega
      · rw [hveq]
        show (headNext x st H).burst_history.sum = executedInt (headNext x st H)
        simp only [headNext, executedInt]
        rw [hHx]
        simp only [List.sum_append, List.sum_cons, List.sum_nil]
        have htk : (x.bursts.take (x.current_burst_index + 1)).sum
            = (x.bursts.take x.current_burst_index).sum
              + x.bursts.getD x.current_burst_index 0 := by
          rw [List.getD_eq_getElem _ _ hidx]
          exact List.sum_take_succ _ _ hidx
        omega
  · intro x' hx'
    rcases hB x' hx' with h | ⟨x, hxm, len, st, H, -, -, hHe, hveq, hreml, hidx1⟩
    · exact hh2 x' h
    · have hHx : H = x.burst_history ++ [len] := by
        dsimp only [femtoPolicy] at hHe
        rw [setStart_hist] at hHe
        exact hHe
      have hAIx := hinv.hactive x hxm
      have hidx := hAIx.2.1
      have hxsum := hh1 x hxm
      have hex2 : executedInt x = (x.bursts.take x.current_burst_index).sum
          + (x.bursts.getD x.current_burst_index 0 - x.remaining_time) := rfl
      rw [hveq]
      show (headFin x len st (s.time + len) H).burst_history.sum
        = (headFin x len st (s.time + len) H).bursts.sum
      simp only [headFin]
      rw [hHx]
      simp only [List.sum_append, List.sum_cons, List.sum_nil]
      have htk : (x.bursts.take (x.current_burst_index + 1)).sum
          = (x.bursts.take x.current_burst_index).sum
            + x.bursts.getD x.current_burst_index 0 := by
        rw [List.getD_eq_getElem _ _ hidx]
        exact List.sum_take_succ _ _ hidx
      have htl : (x.bursts.take (x.current_burst_index + 1)).sum = x.bursts.sum := by
        rw [hidx1, List.take_length]
      omega

theorem stepN_hist_id {ε : Type} {P : Policy ε} {ExOK : ε → Prop} (hP : PolicyOK P ExOK)
    (hrec : ∀ q len, P.record q len = q) {inputs : List Process} :
    ∀ (n : Nat) (s : SchedState ε), LoopInv inputs s → ExOK s.extra →
      (∀ x ∈ allProcs s, x.burst_history = []) →
      ∀ x' ∈ allProcs (stepN P n s), x'.burst_history = [] := by
  intro n
  induction n with
  | zero => intro s _ _ hh; exact hh
  | succ n ih =>
    intro s h1 h2 hh
    by_cases hd : allDone s = true
    · rw [stepN_done P (n + 1) s hd]
      exact hh
    · have hd' : allDone s = false := by
        cases hval : allDone s
        · rfl
        · exact absurd hval hd
      rw [stepN_succ_shift P n s hd']
      obtain ⟨hi, he, -, -, -, -, -, -⟩ := gstep_main hP h1 h2
      exact ih (gstep P s) hi he (gstep_hist_id hP hrec h1 h2 hh)

theorem stepN_femto_hist {inputs : List Process} :
    ∀ (n : Nat) (s : SchedState Unit), LoopInv inputs s →
      (∀ x ∈ activeProcs s, x.burst_history.sum = executedInt x) →
      (∀ x ∈ s.completed, x.burst_history.sum = x.bursts.sum) →
      (∀ x ∈ activeProcs (stepN femtoPolicy n s), x.burst_history.sum = executedInt x) ∧
        (∀ x ∈ (stepN femtoPolicy n s).completed, x.burst_history.sum = x.bursts.sum) := by
  intro n
  induction n with
  | zero => intro s _ hh1 hh2; exact ⟨hh1, hh2⟩
  | succ n ih =>
    intro s h1 hh1 hh2
    by_cases hd : allDone s = true
    · rw [stepN_done femtoPolicy (n + 1) s hd]
      exact ⟨hh1, hh2⟩
    · have hd' : allDone s = false := by
        cases hval : allDone s
        · rfl
        · exact absurd hval hd
      rw [stepN_succ_shift femtoPolicy n s hd']
      obtain ⟨hi, -, -, -, -, -, -, -⟩ := gstep_main femtoOK h1 trivial
      obtain ⟨hg1, hg2⟩ := gstep_femto_hist h1 hh1 hh2
      exact ih (gstep femtoPolicy s) hi hg1 hg2

theorem executedInt_init {p : Process} (h : ValidProc p) : executedInt p = 0 := by
  obtain ⟨hne, -, hidx, hrem, -, -⟩ := h
  cases hb : p.bursts with
  | nil => exact absurd hb hne
  | cons b t =>
    simp only [executedInt, hidx, hb, List.take_zero, List.sum_nil, List.getD]
    rw [hrem, hb]
    simp

theorem rr_nonpos_step {s : SchedState Int} (hq : s.extra ≤ 0)
    (h1 : ∀ x ∈ activeProcs s, 1 ≤ x.remaining_time) (h2 : s.pending = none) :
    (gstep rrPolicy s).completed = s.completed ∧
      (∀ x ∈ activeProcs (gstep rrPolicy s), 1 ≤ x.remaining_time) ∧
      (gstep rrPolicy s).pending = none ∧ (gstep rrPolicy s).extra = s.extra ∧
      (gstep rrPolicy s).total = s.total := by
  have hflush : flushPending (admitArrivals s.time s.queue s.procs).1 s.pending
      = ((admitArrivals s.time s.queue s.procs).1 ++ pendList s.pending, none) :=
    flush_inv _ _ (fun x hx => h1 x (mem_active_of_pend hx))
  have hq1m : ∀ x ∈ (admitArrivals s.time s.queue s.procs).1, x ∈ activeProcs s := by
    intro x hx
    rcases admit_queue_mem s.time s.queue s.procs x hx with h | h
    · exact mem_active_of_queue h
    · exact mem_active_of_procs h.1
  have hps2m : ∀ x ∈ (admitArrivals s.time s.queue s.procs).2, x ∈ s.procs :=
    fun x hx => List.Sublist.mem hx (admit_procs_sublist s.time s.queue s.procs)
  have hgs0 : gstep rrPolicy s =
      (if (admitArrivals s.time s.queue s.procs).1 ++ pendList s.pending = [] then
        { s with
          time := s.time + 1
          queue := (admitArrivals s.time s.queue s.procs).1 ++ pendList s.pending
          pending := none
          procs := (admitArrivals s.time s.queue s.procs).2 }
      else
        match rrPolicy.arrange s.extra
            ((admitArrivals s.time s.queue s.procs).1 ++ pendList s.pending) with
        | [] => { s with
            time := s.time + 1
            queue := []
            pending := none
            procs := (admitArrivals s.time s.queue s.procs).2 }
        | p :: rest => dispatch rrPolicy s (admitArrivals s.time s.queue s.procs).2 p rest) := by
    simp only [gstep]
    rw [hflush]
  rw [hgs0]
  by_cases hempty : (admitArrivals s.time s.queue s.procs).1 ++ pendList s.pending = []
  · rw [if_pos hempty, hempty]
    refine ⟨rfl, ?_, rfl, rfl, rfl⟩
    intro x hx
    simp only [activeProcs, pendList, List.append_nil, List.nil_append] at hx
    exact h1 x (mem_active_of_procs (hps2m x hx))
  · rw [if_neg hempty]
    have harr : rrPolicy.arrange s.extra
        ((admitArrivals s.time s.queue s.procs).1 ++ pendList s.pending)
        = (admitArrivals s.time s.queue s.procs).1 ++ pendList s.pending := rfl
    rw [harr]
    cases hql : (admitArrivals s.time s.queue s.procs).1 ++ pendList s.pending with
    | nil => exact absurd hql hempty
    | cons p rest =>
      dsimp only []
      have hmem : ∀ x ∈ p :: rest, x ∈ activeProcs s := by
        intro x hx
        rw [← hql] at hx
        rcases List.mem_append.1 hx with h | h
        · exact hq1m x h
        · exact mem_active_of_pend h
      have hprem : 1 ≤ p.remaining_time := h1 p (hmem p (List.mem_cons_self p rest))
      have hlen : rrPolicy.runLen s.extra (p :: rest) p = s.extra := by
        show min p.remaining_time s.extra = s.extra
        exact min_eq_right (by omega)
      have hbody : dispatch rrPolicy s (admitArrivals s.time s.queue s.procs).2 p rest =
          { s with
            time := s.time + s.extra
            queue := rest ++ [{ setStart s.time p with
              remaining_time := (setStart s.time p).remaining_time - s.extra }]
            pending := none
            procs := (admitArrivals s.time s.queue s.procs).2 } := by
        simp only [dispatch, hlen]
        rw [if_neg ?hz]
        case hz =>
          show (setStart s.time p).remaining_time - s.extra ≠ 0
          rw [setStart_eq]
          show p.remaining_time - s.extra ≠ 0
          omega
        rfl
      rw [hbody]
      refine ⟨rfl, ?_, rfl, rfl, rfl⟩
      intro x hx
      simp only [activeProcs, pendList, List.append_nil, List.mem_append] at hx
      rcases hx with (hx | hx) | hx
      · exact h1 x (hmem x (List.mem_cons_of_mem p hx))
      · simp only [List.mem_singleton] at hx
        subst hx
        show 1 ≤ (setStart s.time p).remaining_time - s.extra
        rw [setStart_eq]
        show 1 ≤ p.remaining_time - s.extra
        omega
      · exact h1 x (mem_active_of_procs (hps2m x hx))

theorem rr_nonpos_none (w : List Process) (hv : ∀ p ∈ w, ValidProc p) (hne : w ≠ [])
    (q : Int) (hq : q ≤ 0) : ∀ fuel, RoundRobin.run w q fuel = none := by
  have hwpos : 1 ≤ w.length := by
    cases w with
    | nil => exact absurd rfl hne
    | cons a t => simp
  suffices h : ∀ (fuel : Nat) (s : SchedState Int), s.extra = q → s.total = w.length →
      s.completed = [] → s.pending = none →
      (∀ x ∈ activeProcs s, 1 ≤ x.remaining_time) →
      runSched rrPolicy fuel s = none by
    intro fuel
    refine h fuel _ rfl rfl rfl rfl ?_
    intro x hx
    simp only [initState, activeProcs, pendList, List.append_nil, List.nil_append] at hx
    have hxw : x ∈ w := (sortByArrival_perm w).subset hx
    exact (validProc_activeInv (hv x hxw)).1
  intro fuel
  induction fuel with
  | zero =>
    intro s he ht hc hp ha
    have hd : allDone s = false := by
      simp only [allDone, ht, hc, List.length_nil, decide_eq_false_iff_not, not_le]
      omega
    simp [runSched, hd]
  | succ n ih =>
    intro s he ht hc hp ha
    have hd : allDone s = false := by
      simp only [allDone, ht, hc, List.length_nil, decide_eq_false_iff_not, not_le]
      omega
    obtain ⟨hc2, ha2, hp2, he2, ht2⟩ := rr_nonpos_step (by omega) ha hp
    have hstep : runSched rrPolicy (n + 1) s = runSched rrPolicy n (gstep rrPolicy s) := by
      simp [runSched, hd]
    rw [hstep]
    exact ih (gstep rrPolicy s) (by omega) (by omega) (by rw [hc2, hc]) hp2 ha2

theorem prr_step_rule (s : SchedState PRRExtra) (p : Process) (rest : List Process)
    (hpend : s.pending = none) (hprocs : s.procs = [])
    (hsort : sortByPriority s.queue = p :: rest)
    (hrem : p.remaining_time - 1 ≠ 0) :
    gstep prrPolicy s =
      (if s.extra.runtime + 1 ≥ s.extra.quantum then
        { s with
          time := s.time + 1
          queue := rest ++ [{ setStart s.time p with
            remaining_time := (setStart s.time p).remaining_time - 1 }]
          pending := none
          procs := []
          extra := { s.extra with runtime := 0 } }
      else
        { s with
          time := s.time + 1
          queue := { setStart s.time p with
            remaining_time := (setStart s.time p).remaining_time - 1 } :: rest
          pending := none
          procs := []
          extra := { s.extra with runtime := s.extra.runtime + 1 } }) := by
  have hqne : s.queue ≠ [] := by
    intro h0
    rw [h0] at hsort
    simp [sortByPriority, stableSort] at hsort
  have hadm : admitArrivals s.time s.queue s.procs = (s.queue, []) := by
    rw [hprocs]
    rfl
  have hflush : flushPending s.queue s.pending = (s.queue, none) := by
    rw [hpend]
    rfl
  have hgs0 : gstep prrPolicy s = dispatch prrPolicy s [] p rest := by
    simp only [gstep, hadm, hflush]
    rw [if_neg hqne]
    have harr : prrPolicy.arrange s.extra s.queue = p :: rest := hsort
    rw [harr]
  rw [hgs0]
  have hz : ¬ ((prrPolicy.record { setStart s.time p with
      remaining_time := (setStart s.time p).remaining_time
        - prrPolicy.runLen s.extra (p :: rest) p }
      (prrPolicy.runLen s.extra (p :: rest) p)).remaining_time = 0) := by
    show ¬ ((setStart s.time p).remaining_time - 1 = 0)
    rw [setStart_eq]
    exact hrem
  simp only [dispatch]
  rw [if_neg hz]
  by_cases hqt : s.extra.runtime + 1 ≥ s.extra.quantum
  · rw [if_pos hqt]
    have hreq : prrPolicy.requeue (prrPolicy.tick s.extra) rest
        (prrPolicy.record { setStart s.time p with
          remaining_time := (setStart s.time p).remaining_time
            - prrPolicy.runLen s.extra (p :: rest) p }
          (prrPolicy.runLen s.extra (p :: rest) p))
        = (rest ++ [{ setStart s.time p with
            remaining_time := (setStart s.time p).remaining_time - 1 }], none,
           { s.extra with runtime := 0 }) := by
      show (if s.extra.runtime + 1 ≥ s.extra.quantum then _ else _) = _
      rw [if_pos hqt]
      rfl
    rw [hreq]
    rfl
  · rw [if_neg hqt]
    have hreq : prrPolicy.requeue (prrPolicy.tick s.extra) rest
        (prrPolicy.record { setStart s.time p with
          remaining_time := (setStart s.time p).remaining_time
            - prrPolicy.runLen s.extra (p :: rest) p }
          (prrPolicy.runLen s.extra (p :: rest) p))
        = ({ setStart s.time p with
            remaining_time := (setStart s.time p).remaining_time - 1 } :: rest, none,
           { s.extra with runtime := s.extra.runtime + 1 }) := by
      show (if s.extra.runtime + 1 ≥ s.extra.quantum then _ else _) = _
      rw [if_neg hqt]
      rfl
    rw [hreq]
    rfl

/-- Modelled from the spec (section 4.7 forecast rule, absent from the code):
empty history gives `max(5, accumulated + 5)`; otherwise the window of up to
the last 5 entries is classified stable / ramping / volatile; the result is
floored at `accumulated + 2`. -/
def femto_predict_spec (p : Process) : Rat :=
  let acc : Rat := (p.current_burst_accumulated : Rat)
  let predicted : Rat :=
    if p.burst_history = [] then max 5 (acc + 5)
    else
      let window := p.burst_history.drop (p.burst_history.length - 5)
      let avg := mean window
      let min_v := (window.min?).getD 0
      let max_v := (window.max?).getD 0
      let is_increasing := (window.zip window.tail).all fun xy => decide (xy.1 < xy.2)
      if ((max_v - min_v : Int) : Rat) < avg * (1/5) then avg
      else if is_increasing then ((window.getLastD 0 : Int) : Rat) * (6/5)
      else (max_v : Rat)
  max predicted (acc + 2)

/-- The per-process forecast rule the code actually implements (restated):
empty history gives 5; a history of one to four entries gives the mean of
the whole history; a history of five or more entries is classified on the
window of the last five entries (stable / ramping / volatile); accumulated
execution time is never consulted and no lower-bound floor is applied. -/
def femto_predict_desc (p : Process) : Rat :=
  if p.burst_history.length = 0 then 5
  else if p.burst_history.length ≤ 4 then mean p.burst_history
  else
    let window := p.burst_history.drop (p.burst_history.length - 5)
    let avg := mean window
    let min_v := (window.min?).getD 0
    let max_v := (window.max?).getD 0
    let is_increasing := (window.zip window.tail).all fun xy => decide (xy.1 < xy.2)
    if ((max_v - min_v : Int) : Rat) < avg * (1/5) then avg
    else if is_increasing then ((window.getLastD 0 : Int) : Rat) * (6/5)
    else (max_v : Rat)

/-- `copy.deepcopy` on one process: rebuilds the record field by field, so
the copy shares no mutable state with the original. -/
def Process.deepcopy (p : Process) : Process :=
  { pid := p.pid
    arrival_time := p.arrival_time
    priority := p.priority
    bursts := p.bursts
    current_burst_index := p.current_burst_index
    remaining_time := p.remaining_time
    start_time := p.start_time
    completion_time := p.completion_time
    burst_history := p.burst_history
    current_burst_accumulated := p.current_burst_accumulated }

/-- `copy.deepcopy(dataset)` as used in `main.py`. -/
def deepcopy (w : List Process) : List Process := w.map Process.deepcopy

theorem deepcopy_id (w : List Process) : deepcopy w = w := by
  have h : Process.deepcopy = id := funext fun p => rfl
  simp [deepcopy, h]

theorem run_of_done {ε : Type} (P : Policy ε) (fuel : Nat) (s : SchedState ε)
    (hd : allDone s = true) : runSched P fuel s = some s := by
  cases fuel <;> simp [runSched, hd]

theorem init_hist_empty {ε : Type} (ex : ε) (inputs : List Process)
    (hv : ∀ p ∈ inputs, ValidProc p) :
    ∀ x ∈ allProcs (initState ex inputs), x.burst_history = [] := by
  intro x hx
  simp only [allProcs, activeProcs, initState, pendList, List.append_nil,
    List.nil_append] at hx
  exact (hv x ((sortByArrival_perm inputs).subset hx)).2.2.2.2.2

theorem completed_basic {ε : Type} {P : Policy ε} {ExOK : ε → Prop} (hP : PolicyOK P ExOK)
    {inputs : List Process} {ex : ε} {n : Nat} {f : SchedState ε}
    (hv : ∀ p ∈ inputs, ValidProc p) (hex : ExOK ex)
    (hrun : runSched P n (initState ex inputs) = some f) :
    ∀ p ∈ f.completed, p.arrival_time < p.completion_time ∧ p.arrival_time ≤ p.start_time := by
  obtain ⟨hinv, -⟩ := runSched_final hP (initState_inv ex inputs hv) hex hrun
  intro p hp
  have h := (hinv.hcompl p hp).1
  exact ⟨h.1, h.2.1⟩

theorem completed_hist_empty {ε : Type} {P : Policy ε} {ExOK : ε → Prop}
    (hP : PolicyOK P ExOK) (hrec : ∀ q len, P.record q len = q)
    {inputs : List Process} {ex : ε} {n : Nat} {f : SchedState ε}
    (hv : ∀ p ∈ inputs, ValidProc p) (hex : ExOK ex)
    (hrun : runSched P n (initState ex inputs) = some f) :
    ∀ p ∈ f.completed, p.burst_history = [] := by
  obtain ⟨hf, -⟩ := runSched_eq_stepN P n _ f hrun
  rw [hf]
  intro p hp
  exact stepN_hist_id hP hrec n _ (initState_inv ex inputs hv) hex
    (init_hist_empty ex inputs hv) p (List.mem_append.2 (Or.inr hp))

theorem completed_hist_sum {inputs : List Process} {n : Nat} {f : SchedState Unit}
    (hv : ∀ p ∈ inputs, ValidProc p)
    (hrun : runSched femtoPolicy n (initState () inputs) = some f) :
    ∀ p ∈ f.completed, p.burst_history.sum = p.bursts.sum := by
  obtain ⟨hf, -⟩ := runSched_eq_stepN femtoPolicy n _ f hrun
  rw [hf]
  refine (stepN_femto_hist n _ (initState_inv () inputs hv) ?_ ?_).2
  · intro x hx
    simp only [activeProcs, initState, pendList, List.append_nil, List.nil_append] at hx
    have hxv := hv x ((sortByArrival_perm inputs).subset hx)
    rw [hxv.2.2.2.2.2, executedInt_init hxv]
    rfl
  · intro x hx
    simp [initState] at hx

theorem run_terminates_perm {ε : Type} {P : Policy ε} {ExOK : ε → Prop}
    (hP : PolicyOK P ExOK) {inputs : List Process} {ex : ε}
    (hv : ∀ p ∈ inputs, ValidProc p) (hex : ExOK ex) :
    ∃ n f, runSched P n (initState ex inputs) = some f ∧
      List.Perm (f.completed.map Process.core) (inputs.map Process.core) ∧
      f.completed.length = inputs.length := by
  obtain ⟨n, f, hn⟩ := runSched_terminates hP (initState_inv ex inputs hv) hex
  obtain ⟨hinv, hdone⟩ := runSched_final hP (initState_inv ex inputs hv) hex hn
  have hperm := (final_completed hinv hdone).2
  have hlen := hperm.length_eq
  simp only [List.length_map] at hlen
  exact ⟨n, f, hn, hperm, hlen⟩

theorem perm_core_mem {w f : List Process}
    (hperm : List.Perm (f.map Process.core) (w.map Process.core)) :
    ∀ p ∈ f, ∃ p0 ∈ w, p0.pid = p.pid ∧ p0.arrival_time = p.arrival_time ∧
      p0.bursts = p.bursts := by
  intro p hp
  have h1 : Process.core p ∈ w.map Process.core :=
    hperm.subset (List.mem_map_of_mem Process.core hp)
  obtain ⟨p0, hp0, hc⟩ := List.mem_map.1 h1
  simp only [Process.core, Prod.mk.injEq] at hc
  exact ⟨p0, hp0, hc.1, hc.2.1, hc.2.2⟩

theorem run_frame {ε : Type} {P : Policy ε} {ExOK : ε → Prop} (hP : PolicyOK P ExOK)
    {inputs : List Process} {ex : ε} {n : Nat} {f : SchedState ε}
    (hv : ∀ p ∈ inputs, ValidProc p) (hex : ExOK ex)
    (hrun : runSched P n (initState ex inputs) = some f) :
    List.Perm (f.completed.map Process.core) (inputs.map Process.core) ∧
      f.completed.Pairwise (fun a b => a.completion_time ≤ b.completion_time) ∧
      (∀ p ∈ f.completed, ∃ p0 ∈ inputs, p0.pid = p.pid ∧
        p0.arrival_time = p.arrival_time ∧ p0.bursts = p.bursts) := by
  obtain ⟨hinv, hdone⟩ := runSched_final hP (initState_inv ex inputs hv) hex hrun
  have hperm := (final_completed hinv hdone).2
  exact ⟨hperm, hinv.hsorted, perm_core_mem hperm⟩

theorem stepN_claims {ε : Type} {P : Policy ε} {ExOK : ε → Prop} (hP : PolicyOK P ExOK)
    {inputs : List Process} {ex : ε}
    (hv : ∀ p ∈ inputs, ValidProc p) (hex : ExOK ex)
    (hnodup : (inputs.map Process.pid).Nodup) (n : Nat) :
    (∀ p ∈ activeProcs (stepN P n (initState ex inputs)),
        p.current_burst_index < p.bursts.length) ∧
      (∀ p ∈ (stepN P n (initState ex inputs)).completed,
        p.current_burst_index = p.bursts.length ∧ p.remaining_time = 0) ∧
      (∃ tl, (stepN P (n + 1) (initState ex inputs)).completed
          = (stepN P n (initState ex inputs)).completed ++ tl ∧ tl.length ≤ 1) ∧
      (∀ p' ∈ allProcs (stepN P (n + 1) (initState ex inputs)),
        ∃ p ∈ allProcs (stepN P n (initState ex inputs)),
          p.pid = p'.pid ∧ p.current_burst_index ≤ p'.current_burst_index) ∧
      ((stepN P n (initState ex inputs)).completed.map Process.pid).Nodup := by
  have h0 := initState_inv ex inputs hv
  obtain ⟨hinv, hexn⟩ := stepN_main hP n _ h0 hex
  refine ⟨?_, ?_, ?_, ?_, ?_⟩
  · intro p hp
    exact (hinv.hactive p hp).2.1
  · intro p hp
    exact ⟨(hinv.hcompl p hp).1.2.2.1, (hinv.hcompl p hp).1.2.2.2.1⟩
  · rw [stepN_succ_back]
    by_cases hd : allDone (stepN P n (initState ex inputs)) = true
    · rw [if_pos hd]
      exact ⟨[], by simp, by simp⟩
    · have hd' : allDone (stepN P n (initState ex inputs)) = false := by
        cases hval : allDone (stepN P n (initState ex inputs))
        · rfl
        · exact absurd hval hd
      rw [if_neg (by rw [hd']; simp)]
      obtain ⟨-, -, -, htl, -, -, -, -⟩ := gstep_main hP hinv hexn
      exact htl
  · rw [stepN_succ_back]
    by_cases hd : allDone (stepN P n (initState ex inputs)) = true
    · rw [if_pos hd]
      intro p' hp'
      exact ⟨p', hp', rfl, le_refl _⟩
    · have hd' : allDone (stepN P n (initState ex inputs)) = false := by
        cases hval : allDone (stepN P n (initState ex inputs))
        · rfl
        · exact absurd hval hd
      rw [if_neg (by rw [hd']; simp)]
      obtain ⟨-, -, -, -, hmono, -, -, -⟩ := gstep_main hP hinv hexn
      exact hmono
  · have hpidperm : List.Perm ((allProcs (stepN P n (initState ex inputs))).map Process.pid)
        (inputs.map Process.pid) := by
      have h1 := hinv.hperm.map (fun c => c.1)
      simpa [Function.comp, Process.core] using h1
    have hnd2 : ((allProcs (stepN P n (initState ex inputs))).map Process.pid).Nodup :=
      (hpidperm.nodup_iff).2 hnodup
    rw [allProcs, List.map_append] at hnd2
    exact hnd2.of_append_right

/-! ### Contracts named by the claims -/

/-- Termination contract of one policy run on workload `w`: some fuel makes
the run return a final state whose completed list is a permutation of the
inputs on the immutable fields (pid, arrival, bursts) and has full length. -/
def TerminatesVia {ε : Type} (run : Nat → Option (SchedState ε)) (w : List Process) : Prop :=
  ∃ fuel f, run fuel = some f ∧
    List.Perm (f.completed.map Process.core) (w.map Process.core) ∧
    f.completed.length = w.length

/-- Completed-process field contract shared by FCFS, SJF, SRTF, Priority+RR
and Round Robin: completion strictly after arrival, start at or after
arrival, and an empty burst history (none of these policies ever appends to
`burst_history`). -/
def CompletedFieldSpec {ε : Type} (run : Nat → Option (SchedState ε)) : Prop :=
  ∀ fuel f, run fuel = some f → ∀ p ∈ f.completed,
    p.arrival_time < p.completion_time ∧ p.arrival_time ≤ p.start_time ∧
      p.burst_history = []

/-- Completed-process field contract of the Femto policy: completion
strictly after arrival, start at or after arrival, and a burst history
summing to the total burst work (one entry per executed slice, so the
lengths need not match). -/
def FemtoFieldSpec (run : Nat → Option (SchedState Unit)) : Prop :=
  ∀ fuel f, run fuel = some f → ∀ p ∈ f.completed,
    p.arrival_time < p.completion_time ∧ p.arrival_time ≤ p.start_time ∧
      p.burst_history.sum = p.bursts.sum

/-- Frame contract of a policy run on workload `w`: every returned final
state's completed list is a permutation of the inputs on the immutable
fields, is ordered by non-decreasing completion time, and every completed
process carries the arrival time and original bursts of an input process
with its pid. -/
def FrameSpec {ε : Type} (run : Nat → Option (SchedState ε)) (w : List Process) : Prop :=
  ∀ fuel f, run fuel = some f →
    List.Perm (f.completed.map Process.core) (w.map Process.core) ∧
      f.completed.Pairwise (fun a b => a.completion_time ≤ b.completion_time) ∧
      (∀ p ∈ f.completed, ∃ p0 ∈ w, p0.pid = p.pid ∧ p0.arrival_time = p.arrival_time ∧
        p0.bursts = p.bursts)

/-- Loop invariants of one policy's run loop at every step count `n`:
active processes keep `current_burst_index` strictly below the burst
count; completed processes have index equal to the burst count and zero
remaining time; one step appends at most one process to the completed list
and never removes one; the burst index of a process never decreases across
a step; the completed pids stay duplicate-free. -/
def StepInvSpec {ε : Type} (P : Policy ε) (ex : ε) (w : List Process) : Prop :=
  ∀ n : Nat,
    (∀ p ∈ activeProcs (stepN P n (initState ex w)),
        p.current_burst_index < p.bursts.length) ∧
      (∀ p ∈ (stepN P n (initState ex w)).completed,
        p.current_burst_index = p.bursts.length ∧ p.remaining_time = 0) ∧
      (∃ tl, (stepN P (n + 1) (initState ex w)).completed
          = (stepN P n (initState ex w)).completed ++ tl ∧ tl.length ≤ 1) ∧
      (∀ p' ∈ allProcs (stepN P (n + 1) (initState ex w)),
        ∃ p ∈ allProcs (stepN P n (initState ex w)),
          p.pid = p'.pid ∧ p.current_burst_index ≤ p'.current_burst_index) ∧
      ((stepN P n (initState ex w)).completed.map Process.pid).Nodup

/-- The dispatch rule `PriorityRR.run` actually implements when the head's
burst does not end on this tick: the scheduler-global counter
`current_p_runtime` (held in `extra.runtime`, not attached to any process)
is compared against the quantum; on expiry the head goes to the back of
the whole queue and the global counter resets to 0, otherwise the head is
reinserted in front and the global counter increments. -/
def PrrStepSpec (s : SchedState PRRExtra) (p : Process) (rest : List Process) : Prop :=
  gstep prrPolicy s =
    (if s.extra.runtime + 1 ≥ s.extra.quantum then
      { s with
        time := s.time + 1
        queue := rest ++ [{ setStart s.time p with
          remaining_time := (setStart s.time p).remaining_time - 1 }]
        pending := none
        procs := []
        extra := { s.extra with runtime := 0 } }
    else
      { s with
        time := s.time + 1
        queue := { setStart s.time p with
          remaining_time := (setStart s.time p).remaining_time - 1 } :: rest
        pending := none
        procs := []
        extra := { s.extra with runtime := s.extra.runtime + 1 } })

/-! ### The claims -/

/-- A ready process whose history holds one short completed burst. -/
def C1proc : Process := { Process.init 1 0 1 [10] with burst_history := [2] }

/-- Claim C1, counterexample: the spec says the Femto global quantum is
clamped to the closed range [5, 40], hence always at least 5.  For the
singleton ready set holding `C1proc` (history `[2]`, forecast 2), the
code's `calculate_system_quantum` returns 2: the source line is
`max(2, min(int(median), 25))`, a clamp to [2, 25], not [5, 40]. -/
theorem C1_counterexample :
    calculate_system_quantum [C1proc] = 2 ∧
      ¬ (5 ≤ calculate_system_quantum [C1proc] ∧ calculate_system_quantum [C1proc] ≤ 40) := by
  have h : calculate_system_quantum [C1proc] = 2 := by
    norm_num [calculate_system_quantum, C1proc, femto_predict, Process.init, WINDOW_SIZE,
      mean, median, ratSort, stableSort, insS, pyInt, max_def, min_def]
  refine ⟨h, ?_⟩
  rw [h]
  omega

/-- Claim C1, amended: for every non-empty ready set the computed global
quantum equals the median of the ready processes' forecasts, truncated
toward zero and clamped to the closed range [2, 25]; in particular it
always lies in [2, 25]. -/
theorem C1_amended (ready : List Process) (h : ¬ ready = []) :
    calculate_system_quantum ready
        = max 2 (min (pyInt (median (ready.map femto_predict))) 25) ∧
      2 ≤ calculate_system_quantum ready ∧ calculate_system_quantum ready ≤ 25 := by
  have hm : ¬ (ready.map femto_predict = []) := by
    cases ready with
    | nil => exact absurd rfl h
    | cons a t => simp
  refine ⟨?_, calc_quantum_ge_two ready, ?_⟩
  · simp [calculate_system_quantum, h, hm]
  · simp only [calculate_system_quantum, if_neg h, if_neg hm]
    omega

/-- Witness for `C1_amended` at the singleton ready set `[C1proc]`. -/
theorem C1_witness :
    ¬ ([C1proc] : List Process) = [] ∧
      (calculate_system_quantum [C1proc]
          = max 2 (min (pyInt (median ([C1proc].map femto_predict))) 25) ∧
        2 ≤ calculate_system_quantum [C1proc] ∧ calculate_system_quantum [C1proc] ≤ 25) :=
  ⟨by decide, C1_amended [C1proc] (by decide)⟩

/-- A process whose history holds the two completed bursts 1 and 10. -/
def C2proc : Process := { Process.init 1 0 1 [10] with burst_history := [1, 10] }

/-- Claim C2, counterexample: on history `[1, 10]` the spec's forecast rule
classifies the window (max − min = 9 is not below 0.20 × mean = 11/10;
strictly increasing) as ramping and predicts 10 × 1.2 = 12, floored at
accumulated + 2 = 2.  The code's `femto_predict` instead returns the plain
mean 11/2, because any history shorter than 5 entries takes the
`len < window` branch (mean of the whole history) and no accumulated-time
floor exists anywhere in the function. -/
theorem C2_counterexample :
    femto_predict C2proc = 11 / 2 ∧ femto_predict_spec C2proc = 12 ∧
      ¬ ((11 : Rat) / 2 = 12) := by
  refine ⟨?_, ?_, by norm_num⟩
  · have hne : ¬ (([1, 10] : List Int) = []) := by decide
    norm_num [femto_predict, C2proc, Process.init, WINDOW_SIZE, mean, hne]
  · have hne : ¬ (([1, 10] : List Int) = []) := by decide
    norm_num [femto_predict_spec, C2proc, Process.init, mean, hne, max_def]

/-- Claim C2, amended: the forecast the code computes is exactly
`femto_predict_desc`: 5 on empty history, the mean of the whole history
when it has one to four entries, and the stable / ramping / volatile
classification on the last-5 window from five entries on; the accumulated
time of the current burst is never consulted and no floor is applied. -/
theorem C2_amended (p : Process) : femto_predict p = femto_predict_desc p := by
  by_cases h0 : p.burst_history = []
  · have h0' : p.burst_history.length = 0 := by rw [h0]; rfl
    simp [femto_predict, femto_predict_desc, h0, h0', WINDOW_SIZE]
  · have h0' : ¬ p.burst_history.length = 0 := by
      simpa [List.length_eq_zero] using h0
    by_cases h4 : p.burst_history.length < 5
    · have h4' : p.burst_history.length ≤ 4 := by omega
      simp [femto_predict, femto_predict_desc, h0, h0', h4, h4', WINDOW_SIZE]
    · have h4' : ¬ p.burst_history.length ≤ 4 := by omega
      simp [femto_predict, femto_predict_desc, h0', h4, h4', WINDOW_SIZE]

/-- Claim C3, counterexample: FCFS completes the single process
(pid 1, arrival 0, bursts [10]) within one loop iteration, and the
completed process has `burst_history.length = 0` while `bursts.length = 1`:
FCFS never appends to `burst_history`, so the spec's
`len(burst_history) == len(bursts)` fails. -/
theorem C3_counterexample :
    (FCFS.run [Process.init 1 0 1 [10]] 1).map
        (fun f => f.completed.map fun p => decide (p.burst_history.length = p.bursts.length))
      = some [false] := by decide

/-- Claim C3, amended: on every workload of valid processes (non-empty,
strictly positive bursts), every completed process of every policy has
completion strictly after arrival and start at or after arrival; FCFS,
SJF, SRTF, Priority+RR and Round Robin leave `burst_history` empty, and
the Femto policy appends one entry per executed slice, so its history sums
to the total burst work. -/
theorem C3_amended (w : List Process) (q q2 : Int) (hv : ∀ p ∈ w, ValidProc p) :
    CompletedFieldSpec (FCFS.run w) ∧ CompletedFieldSpec (SJF.run w) ∧
      CompletedFieldSpec (SRTF.run w) ∧
      CompletedFieldSpec (fun fuel => PriorityRR.run w q2 fuel) ∧
      CompletedFieldSpec (fun fuel => RoundRobin.run w q fuel) ∧
      FemtoFieldSpec (FemtoScheduler.run w) := by
  refine ⟨?_, ?_, ?_, ?_, ?_, ?_⟩
  · intro fuel f hrun p hp
    obtain ⟨h1, h2⟩ := completed_basic fcfsOK hv trivial hrun p hp
    exact ⟨h1, h2, completed_hist_empty fcfsOK (fun _ _ => rfl) hv trivial hrun p hp⟩
  · intro fuel f hrun p hp
    obtain ⟨h1, h2⟩ := completed_basic sjfOK hv trivial hrun p hp
    exact ⟨h1, h2, completed_hist_empty sjfOK (fun _ _ => rfl) hv trivial hrun p hp⟩
  · intro fuel f hrun p hp
    obtain ⟨h1, h2⟩ := completed_basic srtfOK hv trivial hrun p hp
    exact ⟨h1, h2, completed_hist_empty srtfOK (fun _ _ => rfl) hv trivial hrun p hp⟩
  · intro fuel f hrun p hp
    obtain ⟨h1, h2⟩ := completed_basic prrOK hv trivial hrun p hp
    exact ⟨h1, h2, completed_hist_empty prrOK (fun _ _ => rfl) hv trivial hrun p hp⟩
  · intro fuel f hrun p hp
    replace hrun : RoundRobin.run w q fuel = some f := hrun
    by_cases hq : 1 ≤ q
    · obtain ⟨h1, h2⟩ := completed_basic rrOK hv hq hrun p hp
      exact ⟨h1, h2, completed_hist_empty rrOK (fun _ _ => rfl) hv hq hrun p hp⟩
    · by_cases hw : w = []
      · subst hw
        rw [show RoundRobin.run ([] : List Process) q fuel
            = runSched rrPolicy fuel (initState q ([] : List Process)) from rfl,
          run_of_done rrPolicy fuel (initState q ([] : List Process)) (by rfl)] at hrun
        obtain rfl := Option.some.inj hrun
        simp [initState] at hp
      · rw [rr_nonpos_none w hv hw q (by omega) fuel] at hrun
        cases hrun
  · intro fuel f hrun p hp
    obtain ⟨h1, h2⟩ := completed_basic femtoOK hv trivial hrun p hp
    exact ⟨h1, h2, completed_hist_sum hv hrun p hp⟩

/-- A two-process valid workload for the C3 witness. -/
def C3w : List Process := [Process.init 1 0 1 [2], Process.init 2 1 2 [1]]

/-- Witness for `C3_amended` at the workload `C3w`, quanta 5 and 4. -/
theorem C3_witness :
    (∀ p ∈ C3w, ValidProc p) ∧
      (CompletedFieldSpec (FCFS.run C3w) ∧ CompletedFieldSpec (SJF.run C3w) ∧
        CompletedFieldSpec (SRTF.run C3w) ∧
        CompletedFieldSpec (fun fuel => PriorityRR.run C3w 4 fuel) ∧
        CompletedFieldSpec (fun fuel => RoundRobin.run C3w 5 fuel) ∧
        FemtoFieldSpec (FemtoScheduler.run C3w)) :=
  ⟨by decide, C3_amended C3w 5 4 (by decide)⟩

/-- Claim C4, code bug: `Scheduler.__init__` sets only `name`, `processes`
and `completed_processes`, and no run method of any of the six policies
ever assigns a `context_switches` attribute; yet `main.calculate_metrics`
reads `scheduler_obj.context_switches` when building the result
dictionary.  On the single-process workload below, FCFS completes its run
normally (one completed process), and the metrics call then reaches the
missing attribute and fails with `AttributeError` instead of returning a
dictionary. -/
theorem C4_attribute_error :
    (FCFS.run [Process.init 1 0 1 [3]] 1).map (fun f => f.completed.length) = some 1 ∧
      (∀ (f : SchedState Unit), Scheduler.context_switches f = none) ∧
      (FCFS.run [Process.init 1 0 1 [3]] 1).map
          (fun f => calculate_metrics f.completed (Scheduler.context_switches f))
        = some MetricsResult.attrError :=
  ⟨by decide, fun _ => rfl, by decide⟩

/-- Claim C5: on every workload of valid processes and strictly positive
quanta for the quantum-based policies, each of the six run loops
terminates, with every input process (up to the immutable fields) in the
completed set. -/
theorem C5_terminates (w : List Process) (q q2 : Int) (hv : ∀ p ∈ w, ValidProc p)
    (hq : 1 ≤ q) (hq2 : 1 ≤ q2) :
    TerminatesVia (FCFS.run w) w ∧ TerminatesVia (SJF.run w) w ∧
      TerminatesVia (SRTF.run w) w ∧
      TerminatesVia (fun fuel => PriorityRR.run w q2 fuel) w ∧
      TerminatesVia (fun fuel => RoundRobin.run w q fuel) w ∧
      TerminatesVia (FemtoScheduler.run w) w := by
  refine ⟨?_, ?_, ?_, ?_, ?_, ?_⟩
  · exact run_terminates_perm fcfsOK hv trivial
  · exact run_terminates_perm sjfOK hv trivial
  · exact run_terminates_perm srtfOK hv trivial
  · exact run_terminates_perm prrOK hv trivial
  · exact run_terminates_perm rrOK hv hq
  · exact run_terminates_perm femtoOK hv trivial

/-- A two-process valid workload for the C5 witness. -/
def C5w : List Process := [Process.init 1 0 2 [2], Process.init 2 1 1 [1, 2]]

/-- Witness for `C5_terminates` at the workload `C5w`, quanta 3 and 4. -/
theorem C5_witness :
    (∀ p ∈ C5w, ValidProc p) ∧ (1 : Int) ≤ 3 ∧ (1 : Int) ≤ 4 ∧
      (TerminatesVia (FCFS.run C5w) C5w ∧ TerminatesVia (SJF.run C5w) C5w ∧
        TerminatesVia (SRTF.run C5w) C5w ∧
        TerminatesVia (fun fuel => PriorityRR.run C5w 4 fuel) C5w ∧
        TerminatesVia (fun fuel => RoundRobin.run C5w 3 fuel) C5w ∧
        TerminatesVia (FemtoScheduler.run C5w) C5w) :=
  ⟨by decide, by decide, by decide, C5_terminates C5w 3 4 (by decide) (by decide) (by decide)⟩

/-- Claim C6, counterexample: quantum 4; process 1 (priority 2, arrival 0)
runs alone for three ticks, driving the scheduler-global counter to 3;
processes 2 and 3 (priority 1) arrive at tick 3, and process 2 preempts.
After its very first tick (9 of its 10 units remain) process 2 is rotated
to the back of the queue and the counter resets: the expiry was triggered
by ticks executed by process 1.  Under the claimed per-process counter,
process 2 (1 tick < quantum 4) would have been reinserted at the head. -/
theorem C6_counterexample :
    ((stepN prrPolicy 4 (initState { quantum := 4, runtime := 0 }
        [Process.init 1 0 2 [10], Process.init 2 3 1 [10], Process.init 3 3 1 [10]])).queue.map
      (fun p => (p.pid, p.remaining_time)) = [(3, 10), (1, 7), (2, 9)]) ∧
      (stepN prrPolicy 4 (initState { quantum := 4, runtime := 0 }
          [Process.init 1 0 2 [10], Process.init 2 3 1 [10], Process.init 3 3 1 [10]])).extra
        = { quantum := 4, runtime := 0 } :=
  ⟨by decide, by decide⟩

/-- Claim C6, amended: Priority+RR tracks one scheduler-global
consecutive-run counter (`current_p_runtime`), not a per-process one.  In
any reachable iteration (no held process, no pending arrivals) whose
sorted queue starts with `p` and whose head survives the tick, the step
rotates `p` to the back of the whole queue and resets the counter exactly
when the global counter reaches the quantum, and otherwise reinserts `p`
at the head and increments the global counter — regardless of which
process's ticks advanced that counter. -/
theorem C6_amended (s : SchedState PRRExtra) (p : Process) (rest : List Process)
    (hpend : s.pending = none) (hprocs : s.procs = [])
    (hsort : sortByPriority s.queue = p :: rest)
    (hrem : p.remaining_time - 1 ≠ 0) : PrrStepSpec s p rest :=
  prr_step_rule s p rest hpend hprocs hsort hrem

/-- Head process for the C6 witness: priority 1, ten units left. -/
def C6p : Process := Process.init 1 0 1 [10]

/-- Second process for the C6 witness: priority 2. -/
def C6q : Process := Process.init 2 0 2 [5]

/-- A Priority+RR machine state holding `C6p` and `C6q`. -/
def C6s : SchedState PRRExtra :=
  { time := 0
    queue := [C6p, C6q]
    pending := none
    procs := []
    completed := []
    total := 2
    extra := { quantum := 4, runtime := 0 } }

/-- Witness for `C6_amended` at the concrete state `C6s`. -/
theorem C6_witness :
    C6s.pending = none ∧ C6s.procs = [] ∧
      sortByPriority C6s.queue = C6p :: [C6q] ∧
      C6p.remaining_time - 1 ≠ 0 ∧ PrrStepSpec C6s C6p [C6q] :=
  ⟨rfl, rfl, by decide, by decide, C6_amended C6s C6p [C6q] rfl rfl (by decide) (by decide)⟩

/-- A one-process valid workload for the C7 theorems. -/
def C7w : List Process := [Process.init 1 0 1 [5]]

/-- Claim C7, counterexample: constructing Round Robin or Priority+RR with
quantum 0 succeeds — neither `__init__` contains any validation or raise —
and the configuration error surfaces only in the run loop, which never
terminates: with quantum 0 every dispatch executes `min(remaining, 0) = 0`
ticks, so for every fuel bound the Round Robin run fails to reach the exit
condition. -/
theorem C7_counterexample :
    RoundRobin.construct C7w 0 = ConfigResult.ok (initState 0 C7w) ∧
      PriorityRR.construct C7w 0
        = ConfigResult.ok (initState { quantum := 0, runtime := 0 } C7w) ∧
      ∀ fuel, RoundRobin.run C7w 0 fuel = none :=
  ⟨rfl, rfl, rr_nonpos_none C7w (by decide) (by decide) 0 (by decide)⟩

/-- Claim C7, amended: a zero or negative quantum is accepted at
construction time for both quantum-based policies (no validation exists),
and on every non-empty valid workload the Round Robin run loop then never
terminates, returning no final state for any fuel bound. -/
theorem C7_amended (w : List Process) (q : Int) (hv : ∀ p ∈ w, ValidProc p)
    (hne : w ≠ []) (hq : q ≤ 0) :
    RoundRobin.construct w q = ConfigResult.ok (initState q w) ∧
      PriorityRR.construct w q
        = ConfigResult.ok (initState { quantum := q, runtime := 0 } w) ∧
      ∀ fuel, RoundRobin.run w q fuel = none :=
  ⟨rfl, rfl, rr_nonpos_none w hv hne q hq⟩

/-- Witness for `C7_amended` at the workload `C7w` with quantum -1. -/
theorem C7_witness :
    (∀ p ∈ C7w, ValidProc p) ∧ C7w ≠ [] ∧ (-1 : Int) ≤ 0 ∧
      (RoundRobin.construct C7w (-1) = ConfigResult.ok (initState (-1) C7w) ∧
        PriorityRR.construct C7w (-1)
          = ConfigResult.ok (initState { quantum := -1, runtime := 0 } C7w) ∧
        ∀ fuel, RoundRobin.run C7w (-1) fuel = none) :=
  ⟨by decide, by decide, by decide, C7_amended C7w (-1) (by decide) (by decide) (by decide)⟩

/-- Claim C8: each policy's run is a pure function of its inputs, and
`copy.deepcopy` rebuilds every process field by field without change, so
running a policy on an independently deep-copied workload returns a result
identical — every field of every process, completion and start times
included — to the run on the original. -/
theorem C8_determinism (w : List Process) (fuel : Nat) (q q2 : Int) :
    FCFS.run (deepcopy w) fuel = FCFS.run w fuel ∧
      SJF.run (deepcopy w) fuel = SJF.run w fuel ∧
      SRTF.run (deepcopy w) fuel = SRTF.run w fuel ∧
      PriorityRR.run (deepcopy w) q2 fuel = PriorityRR.run w q2 fuel ∧
      RoundRobin.run (deepcopy w) q fuel = RoundRobin.run w q fuel ∧
      FemtoScheduler.run (deepcopy w) fuel = FemtoScheduler.run w fuel := by
  rw [deepcopy_id]
  exact ⟨rfl, rfl, rfl, rfl, rfl, rfl⟩

/-- Claim C9: every policy's run preserves the input frame — the final
completed list is a permutation of the inputs on pid, arrival time and
original bursts (no process missing or duplicated), it is ordered by
non-decreasing completion time, and each completed process retains the
arrival time and bursts of the input process bearing its pid. -/
theorem C9_frame (w : List Process) (q q2 : Int) (hv : ∀ p ∈ w, ValidProc p) :
    FrameSpec (FCFS.run w) w ∧ FrameSpec (SJF.run w) w ∧ FrameSpec (SRTF.run w) w ∧
      FrameSpec (fun fuel => PriorityRR.run w q2 fuel) w ∧
      FrameSpec (fun fuel => RoundRobin.run w q fuel) w ∧
      FrameSpec (FemtoScheduler.run w) w := by
  refine ⟨?_, ?_, ?_, ?_, ?_, ?_⟩
  · intro fuel f hrun
    exact run_frame fcfsOK hv trivial hrun
  · intro fuel f hrun
    exact run_frame sjfOK hv trivial hrun
  · intro fuel f hrun
    exact run_frame srtfOK hv trivial hrun
  · intro fuel f hrun
    exact run_frame prrOK hv trivial hrun
  · intro fuel f hrun
    replace hrun : RoundRobin.run w q fuel = some f := hrun
    by_cases hq : 1 ≤ q
    · exact run_frame rrOK hv hq hrun
    · by_cases hw : w = []
      · subst hw
        rw [show RoundRobin.run ([] : List Process) q fuel
            = runSched rrPolicy fuel (initState q ([] : List Process)) from rfl,
          run_of_done rrPolicy fuel (initState q ([] : List Process)) (by rfl)] at hrun
        obtain rfl := Option.some.inj hrun
        refine ⟨List.Perm.refl _, List.Pairwise.nil, ?_⟩
        intro p hp
        simp [initState] at hp
      · rw [rr_nonpos_none w hv hw q (by omega) fuel] at hrun
        cases hrun
  · intro fuel f hrun
    exact run_frame femtoOK hv trivial hrun

/-- A two-process valid workload for the C9 witness. -/
def C9w : List Process := [Process.init 1 0 1 [2], Process.init 2 1 2 [1]]

/-- Witness for `C9_frame` at the workload `C9w`, quanta 5 and 4. -/
theorem C9_witness :
    (∀ p ∈ C9w, ValidProc p) ∧
      (FrameSpec (FCFS.run C9w) C9w ∧ FrameSpec (SJF.run C9w) C9w ∧
        FrameSpec (SRTF.run C9w) C9w ∧
        FrameSpec (fun fuel => PriorityRR.run C9w 4 fuel) C9w ∧
        FrameSpec (fun fuel => RoundRobin.run C9w 5 fuel) C9w ∧
        FrameSpec (FemtoScheduler.run C9w) C9w) :=
  ⟨by decide, C9_frame C9w 5 4 (by decide)⟩

/-- Claim C10: in every policy's run loop, active processes keep
`current_burst_index` strictly below `len(bursts)` and the index never
decreases across a step; a completed process has index equal to
`len(bursts)` and zero remaining time; each step appends at most one
process to the completed list and never removes one, and completed pids
stay duplicate-free, so a process is appended exactly once. -/
theorem C10_invariants (w : List Process) (q q2 : Int) (hv : ∀ p ∈ w, ValidProc p)
    (hnodup : (w.map Process.pid).Nodup) (hq : 1 ≤ q) :
    StepInvSpec fcfsPolicy () w ∧ StepInvSpec sjfPolicy () w ∧
      StepInvSpec srtfPolicy () w ∧
      StepInvSpec prrPolicy { quantum := q2, runtime := 0 } w ∧
      StepInvSpec rrPolicy q w ∧ StepInvSpec femtoPolicy () w := by
  refine ⟨?_, ?_, ?_, ?_, ?_, ?_⟩ <;> intro n
  · exact stepN_claims fcfsOK hv trivial hnodup n
  · exact stepN_claims sjfOK hv trivial hnodup n
  · exact stepN_claims srtfOK hv trivial hnodup n
  · exact stepN_claims prrOK hv trivial hnodup n
  · exact stepN_claims rrOK hv hq hnodup n
  · exact stepN_claims femtoOK hv trivial hnodup n

/-- A two-process valid workload with distinct pids for the C10 witness. -/
def C10w : List Process := [Process.init 1 0 1 [2], Process.init 2 0 2 [1, 1]]

/-- Witness for `C10_invariants` at the workload `C10w`, quanta 2 and 3. -/
theorem C10_witness :
    (∀ p ∈ C10w, ValidProc p) ∧ (C10w.map Process.pid).Nodup ∧ (1 : Int) ≤ 2 ∧
      (StepInvSpec fcfsPolicy () C10w ∧ StepInvSpec sjfPolicy () C10w ∧
        StepInvSpec srtfPolicy () C10w ∧
        StepInvSpec prrPolicy { quantum := 3, runtime := 0 } C10w ∧
        StepInvSpec rrPolicy 2 C10w ∧ StepInvSpec femtoPolicy () C10w) :=
  ⟨by decide, by decide, by decide, C10_invariants C10w 2 3 (by decide) (by decide) (by decide)⟩
